import Mathlib

/-!
aproto: schema-less decoder of the protobuf wire format (`decode.go`)

A shallow embedding of `skipGrpcHeaderIfNeeded`, `decodeChunk` and
`DecodeAllChunks`, followed by the properties established about them.

Conventions of the embedding

* a Go `[]byte` is a `List Byte`; the slice `data[pos:]` is `data.drop pos`;
* `uint64` / `uint32` values are natural numbers, reduced modulo `2^64` /
  `2^32` at the places where the Go arithmetic can wrap; `int` has 64 bits;
* a Go run either returns its results (`Outcome.ok`) or stops with a run-time
  panic such as "index out of range" (`Outcome.panic`); the third outcome,
  `Outcome.fuel`, is produced only by the fuel-indexed loops when their step
  budget is exhausted, which `DecodeAllChunks_ne_fuel` shows never happens;
* the triple `(chk, chunkLen, e)` returned by `decodeChunk` is kept as a triple:
  `chk` is `none` for Go's `nil` interface value, `e` is `none` for a `nil` error;
* `decodeChunk` and `DecodeAllChunks` call each other; the embedding takes the
  inner call of `decodeChunk` as an argument (`decodeChunkWith`) and closes the
  recursion with a nesting budget (`DecodeAllChunksFuel`). `DecodeAllChunks_eq`
  and `decodeFields_cons` are the resulting defining equations, free of budgets.
-/

namespace Aproto

/-- One byte of a buffer. -/
abbrev Byte := Fin 256

/-- How a run of Go code ends. -/
inductive Outcome (α : Type) where
  /-- normal return -/
  | ok (a : α)
  /-- run-time panic (index or slice bounds out of range) -/
  | panic
  /-- step budget of a fuel-indexed loop exhausted -/
  | fuel
  deriving DecidableEq, Repr

/-- Sequencing of outcomes: a panic or an exhausted budget ends the run. -/
def Outcome.bind {α β : Type} (o : Outcome α) (f : α → Outcome β) : Outcome β :=
  match o with
  | .ok a => f a
  | .panic => .panic
  | .fuel => .fuel

/-- The errors built with `errors.New` in `decodeChunk`, one per message. -/
inductive Err where
  /-- "malformed keyTypeLen" -/
  | malformedKeyTypeLen
  /-- "not enough data for any furter wire type" -/
  | notEnoughAfterKey
  /-- "field number > 2^29-1" -/
  | fieldNumberTooLarge
  /-- "not enough data for wire type 0(varint)" -/
  | notEnoughVarint
  /-- "fail DecodeVarint()" -/
  | failDecodeVarint
  /-- "not enough data for wire type 1(fixed64)" -/
  | notEnoughFixed64
  /-- "not enough data for wire type 2(string)" -/
  | notEnoughString
  /-- "not enough data for wire type 5(fixed32)" -/
  | notEnoughFixed32
  /-- "Unknown wire type %d of keyType %x" -/
  | unknownWireType (wireType keyType : Nat)
  deriving DecidableEq, Repr

/-- The `IdType` embedded in every node: field number, wire type (`Type` in the
source) and the encoded key bytes (`data`). -/
structure IdType where
  Id : Nat
  Typ : Nat
  data : List Byte
  deriving DecidableEq, Repr

/-- The node variants `Varint`, `Fixed64`, `Fixed32` and `Struct`. -/
inductive Chunk where
  | Varint (Value : Nat) (idt : IdType)
  | Fixed64 (Value : Nat) (idt : IdType)
  | Fixed32 (value : Nat) (idt : IdType)
  | Struct (DataLen : Nat) (idt : IdType) (Children : List Chunk) (Str : List Byte)

/-- The embedded `IdType` of a node. -/
def Chunk.idt : Chunk → IdType
  | .Varint _ i => i
  | .Fixed64 _ i => i
  | .Fixed32 _ i => i
  | .Struct _ i _ _ => i

/-- Field number of a node. -/
def Chunk.Id (c : Chunk) : Nat := c.idt.Id

/-- Results of the sequence decoder: the nodes and the error (`none` is `nil`). -/
abbrev Decoded := List Chunk × Option Err

/-- Results of `decodeChunk`: `(chk, chunkLen, e)`. -/
abbrev Step := Option Chunk × Nat × Option Err

/-! ## Library functions used by the decoder -/

/-- The loop of `proto.DecodeVarint` (golang/protobuf):
`for shift := uint(0); shift < 64; shift += 7 { if n >= len(buf) { return 0, 0 };
b := uint64(buf[n]); n++; x |= (b & 0x7F) << shift; if (b & 0x80) == 0 { return x, n } }
return 0, 0`.
The first argument counts the iterations that remain before `shift` reaches 64;
the list is `buf[n:]`. The shifted group is reduced modulo `2^64` as `uint64`
arithmetic does (only the tenth byte can lose bits). -/
def DecodeVarintLoop : Nat → Nat → Nat → Nat → List Byte → Nat × Nat
  | 0, _, _, _, _ => (0, 0)
  | _ + 1, _, _, _, [] => (0, 0)
  | k + 1, shift, x, n, b :: bs =>
    let x1 := x ||| (((b.val &&& 0x7F) <<< shift) % 2 ^ 64)
    if b.val &&& 0x80 = 0 then (x1, n + 1)
    else DecodeVarintLoop k (shift + 7) x1 (n + 1) bs

/-- `proto.DecodeVarint(buf)`: the value and the number of bytes read, `(0, 0)`
when the buffer ends inside the varint or the varint has more than 10 bytes.
This is the shift loop of golang/protobuf up to 1.3; the `protowire`-based
function of later releases differs from it only in returning `(0, 0)` as well
for a ten-byte varint whose tenth byte exceeds 1. -/
def DecodeVarint (buf : List Byte) : Nat × Nat :=
  DecodeVarintLoop 10 0 0 0 buf

/-- `binary.BigEndian.Uint32(b)`; panics when `b` has fewer than 4 bytes. -/
def BigEndianUint32 : List Byte → Outcome Nat
  | b0 :: b1 :: b2 :: b3 :: _ =>
    .ok (b3.val ||| b2.val <<< 8 ||| b1.val <<< 16 ||| b0.val <<< 24)
  | _ => .panic

/-- `binary.LittleEndian.Uint32(b)`; panics when `b` has fewer than 4 bytes. -/
def LittleEndianUint32 : List Byte → Outcome Nat
  | b0 :: b1 :: b2 :: b3 :: _ =>
    .ok (b0.val ||| b1.val <<< 8 ||| b2.val <<< 16 ||| b3.val <<< 24)
  | _ => .panic

/-- `binary.LittleEndian.Uint64(b)`; panics when `b` has fewer than 8 bytes. -/
def LittleEndianUint64 : List Byte → Outcome Nat
  | b0 :: b1 :: b2 :: b3 :: b4 :: b5 :: b6 :: b7 :: _ =>
    .ok (b0.val ||| b1.val <<< 8 ||| b2.val <<< 16 ||| b3.val <<< 24 |||
      b4.val <<< 32 ||| b5.val <<< 40 ||| b6.val <<< 48 ||| b7.val <<< 56)
  | _ => .panic

/-! ## The decoder -/

/-- `skipGrpcHeaderIfNeeded(data)`.

* `data[pos]` with `pos = 0` panics on an empty buffer.
* When `data[0] == 0` the code evaluates `data[pos : pos+4]` (needs capacity 5)
  and then `data[pos:]` with `pos = 5`, whose upper bound is `len(data)`: on a
  buffer of fewer than 5 bytes one of the two slice expressions panics whatever
  the capacity is.
* `uint32(len(data[pos:]))` truncates the remaining length to 32 bits. -/
def skipGrpcHeaderIfNeeded (data : List Byte) : Outcome (List Byte) :=
  match data with
  | [] => .panic
  | b0 :: _ =>
    if b0.val ≠ 0 then .ok data
    else if data.length < 5 then .panic
    else
      (BigEndianUint32 ((data.drop 1).take 4)).bind fun length =>
        if length > (data.drop 5).length % 2 ^ 32 then .ok data
        else .ok (data.drop 5)

/-- The arm `case proto.WireVarint` of the switch in `decodeChunk`; `pos` and
`chunkLen` are the values the two variables have when the switch is entered. -/
def decodeVarintCase (data : List Byte) (pos chunkLen : Nat) (idt : IdType) : Outcome Step :=
  if pos + 1 > data.length then
    .ok (none, chunkLen, some .notEnoughVarint)
  else
    let u64 := (DecodeVarint (data.drop pos)).1
    let u64Len := (DecodeVarint (data.drop pos)).2
    if u64 = 0 ∧ u64Len = 0 then
      .ok (none, chunkLen, some .failDecodeVarint)
    else
      .ok (some (.Varint u64 idt), chunkLen + u64Len, none)

/-- The arm `case proto.WireFixed64`. -/
def decodeFixed64Case (data : List Byte) (pos chunkLen : Nat) (idt : IdType) : Outcome Step :=
  if pos + 8 > data.length then
    .ok (none, chunkLen, some .notEnoughFixed64)
  else
    (LittleEndianUint64 ((data.drop pos).take 8)).bind fun u64 =>
      .ok (some (.Fixed64 u64 idt), chunkLen + 8, none)

/-- The arm `case proto.WireStartGroup, proto.WireEndGroup, proto.WireBytes`,
with the recursive call `DecodeAllChunks(str)` taken as the argument `inner`.

* `uint64(pos)+sLen` and `chunkLen += sLen` are `uint64` sums and wrap modulo `2^64`.
* In `data[pos : pos+int(sLen)]` the upper bound is the wrapped sum; the check
  before it has shown that it is at most `len(data)`, and the slice expression
  panics when it lies below `pos`.
* A panic of the inner call ends the run; an error it returns is dropped. -/
def decodeBytesCase (inner : List Byte → Outcome Decoded) (data : List Byte)
    (pos chunkLen : Nat) (idt : IdType) : Outcome Step :=
  let sLen := (DecodeVarint (data.drop pos)).1
  let sLenLen := (DecodeVarint (data.drop pos)).2
  if sLen = 0 ∧ sLenLen = 0 then
    .ok (none, chunkLen, some .failDecodeVarint)
  else
    let chunkLen1 := chunkLen + sLenLen
    let pos1 := pos + sLenLen
    if (pos1 + sLen) % 2 ^ 64 > data.length then
      .ok (none, chunkLen1, some .notEnoughString)
    else
      let hi := (pos1 + sLen) % 2 ^ 64
      if hi < pos1 then .panic
      else
        let str := (data.drop pos1).take (hi - pos1)
        (inner str).bind fun r =>
          match r.2 with
          | none =>
            .ok (some (.Struct str.length idt r.1 str), (chunkLen1 + sLen) % 2 ^ 64, none)
          | some _ =>
            .ok (some (.Struct str.length idt [] str), (chunkLen1 + sLen) % 2 ^ 64, none)

/-- The arm `case proto.WireFixed32`. -/
def decodeFixed32Case (data : List Byte) (pos chunkLen : Nat) (idt : IdType) : Outcome Step :=
  if pos + 4 > data.length then
    .ok (none, chunkLen, some .notEnoughFixed32)
  else
    (LittleEndianUint32 ((data.drop pos).take 4)).bind fun u32 =>
      .ok (some (.Fixed32 u32 idt), chunkLen + 4, none)

/-- The body of `decodeChunk(data)`, with the recursive call
`DecodeAllChunks(str)` of the length-delimited arm taken as the argument
`inner`. -/
def decodeChunkWith (inner : List Byte → Outcome Decoded) (data : List Byte) :
    Outcome Step :=
  let keyType := (DecodeVarint data).1
  let keyTypeLen := (DecodeVarint data).2
  if keyTypeLen ≤ 0 ∨ keyTypeLen > 16 then
    .ok (none, 0, some .malformedKeyTypeLen)
  else
    let pos := keyTypeLen
    if pos ≥ data.length then
      .ok (none, 0, some .notEnoughAfterKey)
    else
      let fieldNumber := keyType >>> 3
      if fieldNumber > 536870911 then
        .ok (none, 0, some .fieldNumberTooLarge)
      else
        let wireType := keyType &&& 7
        let keyTypeBytes := data.take keyTypeLen
        let chunkLen := keyTypeLen
        let idt : IdType := { Id := fieldNumber, Typ := wireType, data := keyTypeBytes }
        if wireType = 0 then decodeVarintCase data pos chunkLen idt
        else if wireType = 1 then decodeFixed64Case data pos chunkLen idt
        else if wireType = 3 ∨ wireType = 4 ∨ wireType = 2 then
          decodeBytesCase inner data pos chunkLen idt
        else if wireType = 5 then decodeFixed32Case data pos chunkLen idt
        else .ok (none, chunkLen, some (.unknownWireType wireType keyType))

/-- The loop of `DecodeAllChunks` over `data[pos:]` with the nodes `ret`
collected so far: `for pos < uint64(len(data)) { chunk, chunkLen, e :=
decodeChunk(data[pos:]); if e != nil { return ret, e }; if chunk != nil
{ ret = append(ret, chunk) }; pos += chunkLen }; return ret, nil`.
The first argument bounds the number of iterations. -/
def decodeLoop (dc : List Byte → Outcome Step) :
    Nat → List Byte → List Chunk → Outcome Decoded
  | 0, rest, ret => if 0 < rest.length then .fuel else .ok (ret, none)
  | k + 1, rest, ret =>
    if 0 < rest.length then
      (dc rest).bind fun s =>
        match s.2.2 with
        | some e => .ok (ret, some e)
        | none =>
          decodeLoop dc k (rest.drop s.2.1)
            (match s.1 with
             | some chunk => ret ++ [chunk]
             | none => ret)
    else .ok (ret, none)

/-- `DecodeAllChunks(data)` with a budget for the depth of nesting: the framing
step, then the loop; the nested call of `decodeChunk` runs with the budget
reduced by one. -/
def DecodeAllChunksFuel : Nat → List Byte → Outcome Decoded
  | 0, _ => .fuel
  | n + 1, data =>
    (skipGrpcHeaderIfNeeded data).bind fun d =>
      decodeLoop (decodeChunkWith (DecodeAllChunksFuel n)) d.length d []

/-- `DecodeAllChunks(data)`. Every nested payload is shorter than the buffer
that holds it and every decoded field takes at least one byte, so a budget of
`len(data) + 1` levels and `len(data)` iterations is never exhausted. -/
def DecodeAllChunks (data : List Byte) : Outcome Decoded :=
  DecodeAllChunksFuel (data.length + 1) data

/-- `decodeChunk(data)`. -/
def decodeChunk (data : List Byte) : Outcome Step :=
  decodeChunkWith DecodeAllChunks data

/-- The field-decoding loop of `DecodeAllChunks` run on `data` from its first
byte, without the framing step. -/
def decodeFields (data : List Byte) : Outcome Decoded :=
  decodeLoop decodeChunk data.length data []

/-! ## The render facade -/

/-- The declarations the facade uses that lie outside `decode.go`, for a
renderer type `R`: the method `Render(indent, r)` of a node and the method
`NEWLINE()` of a renderer. -/
structure Rendering (R : Type) where
  Render : Chunk → String → R → String
  NEWLINE : R → String

/-- `TryDumpEx(data, r)`: `chunks, e := DecodeAllChunks(data); if e != nil
{ return "", e }; ret := ""; for _, ch := range chunks { ret += ch.Render("", r);
ret += r.NEWLINE() }; return ret, nil`. -/
def TryDumpEx {R : Type} (env : Rendering R) (data : List Byte) (r : R) :
    Outcome (String × Option Err) :=
  (DecodeAllChunks data).bind fun res =>
    match res.2 with
    | some e => .ok ("", some e)
    | none =>
      .ok (res.1.foldl (fun ret ch => ret ++ env.Render ch "" r ++ env.NEWLINE r) "", none)

/-- `TryDump(data)`: `TryDumpEx(data, &ConsoleRenderer{})`, with `console` the
console renderer. -/
def TryDump {R : Type} (env : Rendering R) (console : R) (data : List Byte) :
    Outcome (String × Option Err) :=
  TryDumpEx env data console

/-- `Dump(data)`: `ret, e := TryDump(data); if e != nil { return "" }; return ret`. -/
def Dump {R : Type} (env : Rendering R) (console : R) (data : List Byte) : Outcome String :=
  (TryDump env console data).bind fun res =>
    match res.2 with
    | some _ => .ok ""
    | none => .ok res.1

/-- A step function makes progress when every step without error consumes at
least one byte. -/
def Progress (dc : List Byte → Outcome Step) : Prop :=
  ∀ (data : List Byte) (chk : Option Chunk) (len : Nat),
    dc data = .ok (chk, len, none) → 1 ≤ len

/-- The loop of `DecodeAllChunks` instrumented to record, next to every node it
appends, the consumed count `chunkLen` returned with that node. -/
def decodeTrace (dc : List Byte → Outcome Step) :
    Nat → List Byte → Outcome (List (Chunk × Nat) × Option Err)
  | 0, rest => if 0 < rest.length then .fuel else .ok ([], none)
  | k + 1, rest =>
    if 0 < rest.length then
      (dc rest).bind fun s =>
        match s.2.2 with
        | some e => .ok ([], some e)
        | none =>
          (decodeTrace dc k (rest.drop s.2.1)).bind fun t =>
            .ok ((match s.1 with
                  | some chunk => [(chunk, s.2.1)]
                  | none => []) ++ t.1, t.2)
    else .ok ([], none)

/-- The instrumented field-decoding loop on `data`: the nodes of `decodeFields`
paired with their consumed counts. -/
def decodeFieldsTrace (data : List Byte) : Outcome (List (Chunk × Nat) × Option Err) :=
  decodeTrace decodeChunk data.length data

/-- The relation `Within c d`: the node `c` is `d` itself or is nested, at any
depth, in the `Children` of `d`. -/
inductive Within : Chunk → Chunk → Prop where
  | here (c : Chunk) : Within c c
  | child (c d : Chunk) (DataLen : Nat) (idt : IdType) (Children : List Chunk)
      (Str : List Byte) : d ∈ Children → Within c d →
      Within c (.Struct DataLen idt Children Str)

/-- The `IdType` that `decodeChunk` builds from the key of `data`. -/
def keyIdType (data : List Byte) : IdType :=
  { Id := (DecodeVarint data).1 >>> 3, Typ := (DecodeVarint data).1 &&& 7,
    data := data.take (DecodeVarint data).2 }

/-- The payload `str` that the length-delimited arm slices out of `data` when the
key ends at `pos`. -/
def payloadOf (data : List Byte) (pos : Nat) : List Byte :=
  (data.drop (pos + (DecodeVarint (data.drop pos)).2)).take (DecodeVarint (data.drop pos)).1

/-- The `Children` that the length-delimited arm stores for the result `r` of
the inner decode: the nodes when there is no error, nothing otherwise. -/
def childrenOf (r : Decoded) : List Chunk :=
  match r.2 with
  | none => r.1
  | some _ => []

/-! ## Notions used to state the properties -/

/-- The byte with value `n mod 256`. -/
def byteOf (n : Nat) : Byte := ⟨n % 256, Nat.mod_lt _ (by decide)⟩

/-- The big-endian unsigned value of a byte sequence. -/
def bigEndianValue (bs : List Byte) : Nat :=
  bs.foldl (fun acc b => acc * 256 + b.val) 0

/-- The 4-byte big-endian encoding of `n`. -/
def bigEndianBytes4 (n : Nat) : List Byte :=
  [byteOf (n / 2 ^ 24), byteOf (n / 2 ^ 16), byteOf (n / 2 ^ 8), byteOf n]

/-- The first byte of a buffer as a number (`0` for the empty buffer). -/
def firstByte (d : List Byte) : Nat :=
  match d with
  | [] => 0
  | b :: _ => b.val

/-- The error kinds of the specification. -/
inductive ErrorKind where
  | MalformedVarint
  | TruncatedInput
  | InvalidFieldNumber
  | UnknownWireType
  deriving DecidableEq, Repr

/-- The error kind each error of `decodeChunk` stands for: a key or value varint
that does not decode is `MalformedVarint`; a value, fixed-width field or payload
that does not fit in the remaining buffer is `TruncatedInput`. -/
def Err.kind : Err → ErrorKind
  | .malformedKeyTypeLen => .MalformedVarint
  | .notEnoughAfterKey => .TruncatedInput
  | .fieldNumberTooLarge => .InvalidFieldNumber
  | .notEnoughVarint => .TruncatedInput
  | .failDecodeVarint => .MalformedVarint
  | .notEnoughFixed64 => .TruncatedInput
  | .notEnoughString => .TruncatedInput
  | .notEnoughFixed32 => .TruncatedInput
  | .unknownWireType _ _ => .UnknownWireType

/-- The little-endian unsigned value of a byte sequence. -/
def littleEndianValue (bs : List Byte) : Nat :=
  bs.foldr (fun b acc => b.val + 256 * acc) 0

/-- The buffer is exactly one terminated varint of at most `k` bytes: every byte
but the last has its high bit set, the last has it clear. -/
def varintShape : Nat → List Byte → Bool
  | 0, _ => false
  | _ + 1, [] => false
  | k + 1, b :: bs => if b.val < 128 then bs.isEmpty else varintShape k bs

/-- The steps `t` (node and consumed count) are what `decodeChunk` returns,
without error, at consecutive positions of `d` starting at its first byte. -/
def ConsecutiveSteps : List Byte → List (Chunk × Nat) → Prop
  | _, [] => True
  | d, s :: t => decodeChunk d = .ok (some s.1, s.2, none) ∧ ConsecutiveSteps (d.drop s.2) t

/-- The concatenation of a list of strings, in order. -/
def concatAll : List String → String
  | [] => ""
  | s :: ss => s ++ concatAll ss

/-- The encoded length of the value of the field at the start of `data`, read
off the wire type of its key: the bytes of a varint; 8; 4; for a
length-delimited field the bytes of the length varint plus the declared length. -/
def encodedValueLen (data : List Byte) : Nat :=
  if (DecodeVarint data).1 &&& 7 = 0 then
    (DecodeVarint (data.drop (DecodeVarint data).2)).2
  else if (DecodeVarint data).1 &&& 7 = 1 then 8
  else if (DecodeVarint data).1 &&& 7 = 5 then 4
  else (DecodeVarint (data.drop (DecodeVarint data).2)).2 +
    (DecodeVarint (data.drop (DecodeVarint data).2)).1

/-! ## The canonical wire encoder -/

/-- The minimal base-128 varint of `v`, least significant group first: groups of
7 bits, every byte but the last with its high bit set. The first argument bounds
the number of continuation bytes. -/
def putVarint : Nat → Nat → List Byte
  | 0, v => [byteOf v]
  | k + 1, v =>
    if v < 128 then [byteOf v] else byteOf (v % 128 + 128) :: putVarint k (v / 128)

/-- The minimal varint of `v` (at most ten bytes, enough for 64-bit values). -/
def encodeVarint (v : Nat) : List Byte := putVarint 9 v

/-- The key of a field: `(Id << 3) | Type`. -/
def keyOf (Id Typ : Nat) : Nat := (Id <<< 3) ||| Typ

/-- The 8 little-endian bytes of `v`. -/
def littleEndianBytes8 (v : Nat) : List Byte :=
  [byteOf v, byteOf (v / 2 ^ 8), byteOf (v / 2 ^ 16), byteOf (v / 2 ^ 24),
   byteOf (v / 2 ^ 32), byteOf (v / 2 ^ 40), byteOf (v / 2 ^ 48), byteOf (v / 2 ^ 56)]

/-- The 4 little-endian bytes of `v`. -/
def littleEndianBytes4 (v : Nat) : List Byte :=
  [byteOf v, byteOf (v / 2 ^ 8), byteOf (v / 2 ^ 16), byteOf (v / 2 ^ 24)]

/-- A node tree as handed to the encoder: field number and value, and for a
`Struct` the wire type and the children. -/
inductive Node where
  | Varint (Id Value : Nat)
  | Fixed64 (Id Value : Nat)
  | Fixed32 (Id value : Nat)
  | Struct (Id Typ : Nat) (Children : List Node)

mutual
/-- The canonical encoding of a node: the key as a minimal varint, then the
value; a `Struct` as the minimal varint of its payload length followed by the
encoding of its children. -/
def Node.encode : Node → List Byte
  | .Varint id v => encodeVarint (keyOf id 0) ++ encodeVarint v
  | .Fixed64 id v => encodeVarint (keyOf id 1) ++ littleEndianBytes8 v
  | .Fixed32 id v => encodeVarint (keyOf id 5) ++ littleEndianBytes4 v
  | .Struct id t cs =>
    encodeVarint (keyOf id t) ++ (encodeVarint (encodeNodes cs).length ++ encodeNodes cs)
/-- The canonical encoding of a list of nodes: the concatenation. -/
def encodeNodes : List Node → List Byte
  | [] => []
  | c :: cs => c.encode ++ encodeNodes cs
end

mutual
/-- The decoder node that corresponds to an encoder node: same `Id`, `Type` and
value, the key bytes, and for a `Struct` the encoded children as `Str`, their
length as `DataLen` and the children as `Children`. -/
def Node.toChunk : Node → Chunk
  | .Varint id v => .Varint v ⟨id, 0, encodeVarint (keyOf id 0)⟩
  | .Fixed64 id v => .Fixed64 v ⟨id, 1, encodeVarint (keyOf id 1)⟩
  | .Fixed32 id v => .Fixed32 v ⟨id, 5, encodeVarint (keyOf id 5)⟩
  | .Struct id t cs =>
    .Struct (encodeNodes cs).length ⟨id, t, encodeVarint (keyOf id t)⟩ (toChunks cs)
      (encodeNodes cs)
/-- The decoder nodes of a list of encoder nodes, in the same order. -/
def toChunks : List Node → List Chunk
  | [] => []
  | c :: cs => c.toChunk :: toChunks cs
end

mutual
/-- The nodes of the round trip: field number in `1..536870911`, a value that
fits its type, and for a `Struct` wire type 2, 3 or 4 and, recursively, a
non-empty list of children. -/
def Node.Valid : Node → Prop
  | .Varint id v => 1 ≤ id ∧ id ≤ 536870911 ∧ v < 2 ^ 64
  | .Fixed64 id v => 1 ≤ id ∧ id ≤ 536870911 ∧ v < 2 ^ 64
  | .Fixed32 id v => 1 ≤ id ∧ id ≤ 536870911 ∧ v < 2 ^ 32
  | .Struct id t cs =>
    1 ≤ id ∧ id ≤ 536870911 ∧ (t = 2 ∨ t = 3 ∨ t = 4) ∧ cs ≠ [] ∧ validNodes cs
/-- Every node of the list is valid. -/
def validNodes : List Node → Prop
  | [] => True
  | c :: cs => c.Valid ∧ validNodes cs
end

/-! ## Facts about `DecodeVarint` -/

theorem DecodeVarintLoop_spec (k : Nat) : ∀ (shift x n : Nat) (buf : List Byte),
    x < 2 ^ 64 →
    ((DecodeVarintLoop k shift x n buf).2 = 0 ∧ (DecodeVarintLoop k shift x n buf).1 = 0) ∨
    (n < (DecodeVarintLoop k shift x n buf).2 ∧
      (DecodeVarintLoop k shift x n buf).2 ≤ n + buf.length ∧
      (DecodeVarintLoop k shift x n buf).2 ≤ n + k ∧
      (DecodeVarintLoop k shift x n buf).1 < 2 ^ 64) := by
  induction k with
  | zero => intro shift x n buf _; left; simp [DecodeVarintLoop]
  | succ k ih =>
    intro shift x n buf hx
    cases buf with
    | nil => left; simp [DecodeVarintLoop]
    | cons b bs =>
      have hx1 : x ||| (((b.val &&& 0x7F) <<< shift) % 2 ^ 64) < 2 ^ 64 :=
        Nat.or_lt_two_pow hx (Nat.mod_lt _ (by positivity))
      simp only [DecodeVarintLoop]
      split_ifs with hb
      · right
        simp only [List.length_cons]
        exact ⟨by omega, by omega, by omega, hx1⟩
      · rcases ih (shift + 7) _ (n + 1) bs hx1 with h | h
        · left; exact h
        · right
          simp only [List.length_cons]
          exact ⟨by omega, by omega, by omega, h.2.2.2⟩

theorem DecodeVarint_spec (buf : List Byte) :
    ((DecodeVarint buf).2 = 0 ∧ (DecodeVarint buf).1 = 0) ∨
    (0 < (DecodeVarint buf).2 ∧ (DecodeVarint buf).2 ≤ buf.length ∧
      (DecodeVarint buf).2 ≤ 10 ∧ (DecodeVarint buf).1 < 2 ^ 64) := by
  have h := DecodeVarintLoop_spec 10 0 0 0 buf (by norm_num)
  simpa [DecodeVarint] using h

theorem DecodeVarint_len_le (buf : List Byte) : (DecodeVarint buf).2 ≤ buf.length := by
  rcases DecodeVarint_spec buf with h | h <;> omega

theorem DecodeVarint_val_lt (buf : List Byte) : (DecodeVarint buf).1 < 2 ^ 64 := by
  rcases DecodeVarint_spec buf with h | h
  · rw [h.2]; norm_num
  · exact h.2.2.2

theorem DecodeVarint_len_zero (buf : List Byte) (h : (DecodeVarint buf).2 = 0) :
    (DecodeVarint buf).1 = 0 := by
  rcases DecodeVarint_spec buf with h1 | h1
  · exact h1.2
  · omega

/-! ## Facts about outcomes -/

@[simp] theorem Outcome.bind_ok {α β : Type} (a : α) (f : α → Outcome β) :
    (Outcome.ok a).bind f = f a := rfl

@[simp] theorem Outcome.bind_panic {α β : Type} (f : α → Outcome β) :
    (Outcome.panic : Outcome α).bind f = .panic := rfl

@[simp] theorem Outcome.bind_fuel {α β : Type} (f : α → Outcome β) :
    (Outcome.fuel : Outcome α).bind f = .fuel := rfl

theorem Outcome.bind_eq_ok {α β : Type} (o : Outcome α) (f : α → Outcome β) (b : β) :
    o.bind f = .ok b ↔ ∃ a, o = .ok a ∧ f a = .ok b := by
  cases o <;> simp

theorem LittleEndianUint64_ok (l : List Byte) (h : 8 ≤ l.length) :
    ∃ v, LittleEndianUint64 l = .ok v := by
  match l, h with
  | _ :: _ :: _ :: _ :: _ :: _ :: _ :: _ :: _, _ => exact ⟨_, rfl⟩

theorem LittleEndianUint32_ok (l : List Byte) (h : 4 ≤ l.length) :
    ∃ v, LittleEndianUint32 l = .ok v := by
  match l, h with
  | _ :: _ :: _ :: _ :: _, _ => exact ⟨_, rfl⟩

theorem BigEndianUint32_ok (l : List Byte) (h : 4 ≤ l.length) :
    ∃ v, BigEndianUint32 l = .ok v := by
  match l, h with
  | _ :: _ :: _ :: _ :: _, _ => exact ⟨_, rfl⟩

/-! ## Facts about one decoding step -/

theorem decodeVarintCase_ok (data : List Byte) (pos : Nat) (idt : IdType)
    (chk : Option Chunk) (len : Nat)
    (h : decodeVarintCase data pos pos idt = .ok (chk, len, none)) :
    chk ≠ none ∧ pos + 1 ≤ len ∧ len ≤ data.length := by
  unfold decodeVarintCase at h
  simp only at h
  have hv := DecodeVarint_spec (data.drop pos)
  simp only [List.length_drop] at hv
  split_ifs at h with h1 h2
  · simp at h
  · simp at h
  · simp only [Outcome.ok.injEq, Prod.mk.injEq] at h
    obtain ⟨rfl, rfl, -⟩ := h
    refine ⟨by simp, ?_, ?_⟩ <;> omega

theorem decodeFixed64Case_ok (data : List Byte) (pos : Nat) (idt : IdType)
    (chk : Option Chunk) (len : Nat)
    (h : decodeFixed64Case data pos pos idt = .ok (chk, len, none)) :
    chk ≠ none ∧ pos + 1 ≤ len ∧ len ≤ data.length := by
  unfold decodeFixed64Case at h
  split_ifs at h with h1
  · simp at h
  · obtain ⟨v, hv⟩ := LittleEndianUint64_ok ((data.drop pos).take 8)
      (by simp only [List.length_take, List.length_drop]; omega)
    rw [hv] at h
    simp only [Outcome.bind_ok, Outcome.ok.injEq, Prod.mk.injEq] at h
    obtain ⟨rfl, rfl, -⟩ := h
    refine ⟨by simp, ?_, ?_⟩ <;> omega

theorem decodeFixed32Case_ok (data : List Byte) (pos : Nat) (idt : IdType)
    (chk : Option Chunk) (len : Nat)
    (h : decodeFixed32Case data pos pos idt = .ok (chk, len, none)) :
    chk ≠ none ∧ pos + 1 ≤ len ∧ len ≤ data.length := by
  unfold decodeFixed32Case at h
  split_ifs at h with h1
  · simp at h
  · obtain ⟨v, hv⟩ := LittleEndianUint32_ok ((data.drop pos).take 4)
      (by simp only [List.length_take, List.length_drop]; omega)
    rw [hv] at h
    simp only [Outcome.bind_ok, Outcome.ok.injEq, Prod.mk.injEq] at h
    obtain ⟨rfl, rfl, -⟩ := h
    refine ⟨by simp, ?_, ?_⟩ <;> omega

theorem decodeBytesCase_ok (inner : List Byte → Outcome Decoded) (data : List Byte)
    (pos : Nat) (idt : IdType) (chk : Option Chunk) (len : Nat)
    (h : decodeBytesCase inner data pos pos idt = .ok (chk, len, none)) :
    chk ≠ none ∧ pos + 1 ≤ len ∧ len ≤ data.length := by
  unfold decodeBytesCase at h
  have hv := DecodeVarint_spec (data.drop pos)
  simp only [List.length_drop] at hv
  simp only at h
  split_ifs at h with h1 h2 h3
  · simp at h
  · simp at h
  · rw [Outcome.bind_eq_ok] at h
    obtain ⟨r, -, hr⟩ := h
    have hlen : len = (pos + (DecodeVarint (data.drop pos)).2 +
        (DecodeVarint (data.drop pos)).1) % 2 ^ 64 ∧ chk ≠ none := by
      split at hr <;>
        (simp only [Outcome.ok.injEq, Prod.mk.injEq] at hr
         obtain ⟨rfl, rfl, -⟩ := hr
         exact ⟨rfl, by simp⟩)
    refine ⟨hlen.2, ?_, ?_⟩ <;> omega

/-- A step that returns no error returns a node and a consumed count between 2
and the length of the buffer. -/
theorem decodeChunkWith_ok_bounds (inner : List Byte → Outcome Decoded) (data : List Byte)
    (chk : Option Chunk) (len : Nat)
    (h : decodeChunkWith inner data = .ok (chk, len, none)) :
    chk ≠ none ∧ 2 ≤ len ∧ len ≤ data.length := by
  unfold decodeChunkWith at h
  simp only at h
  split_ifs at h with h1 h2 h3 h4 h5 h6 h7
  all_goals try (simp at h)
  · have := decodeVarintCase_ok _ _ _ _ _ h
    exact ⟨this.1, by omega, this.2.2⟩
  · have := decodeFixed64Case_ok _ _ _ _ _ h
    exact ⟨this.1, by omega, this.2.2⟩
  · have := decodeBytesCase_ok _ _ _ _ _ _ h
    exact ⟨this.1, by omega, this.2.2⟩
  · have := decodeFixed32Case_ok _ _ _ _ _ h
    exact ⟨this.1, by omega, this.2.2⟩

theorem Outcome.bind_congr {α β : Type} (o : Outcome α) (f g : α → Outcome β)
    (h : ∀ a, o = .ok a → f a = g a) : o.bind f = o.bind g := by
  cases o with
  | ok a => exact h a rfl
  | panic => rfl
  | fuel => rfl

/-! ## The recursion: independence of the budgets -/

theorem decodeBytesCase_congr (r1 r2 : List Byte → Outcome Decoded) (data : List Byte)
    (pos chunkLen : Nat) (idt : IdType) (hpos : 0 < pos)
    (h : ∀ s : List Byte, s.length < data.length → r1 s = r2 s) :
    decodeBytesCase r1 data pos chunkLen idt = decodeBytesCase r2 data pos chunkLen idt := by
  unfold decodeBytesCase
  simp only
  split_ifs with h1 h2 h3
  · rfl
  · rfl
  · rfl
  · rw [h _ (by simp only [List.length_take, List.length_drop]; omega)]

/-- The step calls the inner decoder only on buffers shorter than its own. -/
theorem decodeChunkWith_congr (r1 r2 : List Byte → Outcome Decoded) (data : List Byte)
    (h : ∀ s : List Byte, s.length < data.length → r1 s = r2 s) :
    decodeChunkWith r1 data = decodeChunkWith r2 data := by
  unfold decodeChunkWith
  simp only
  split_ifs with h1 h2 h3 h4 h5 h6 h7
  all_goals try rfl
  exact decodeBytesCase_congr r1 r2 data _ _ _ (by omega) h

theorem decodeLoop_congr (dc1 dc2 : List Byte → Outcome Step) (k : Nat) :
    ∀ (rest : List Byte) (ret : List Chunk),
      (∀ s : List Byte, s.length ≤ rest.length → dc1 s = dc2 s) →
      decodeLoop dc1 k rest ret = decodeLoop dc2 k rest ret := by
  induction k with
  | zero => intro rest ret _; rfl
  | succ k ih =>
    intro rest ret h
    simp only [decodeLoop]
    split_ifs with h0
    · rw [h rest le_rfl]
      apply Outcome.bind_congr
      intro s _
      split
      · rfl
      · exact ih _ _ (fun t ht => h t (by
          simp only [List.length_drop] at ht; omega))
    · rfl

theorem decodeChunkWith_progress (inner : List Byte → Outcome Decoded) :
    Progress (decodeChunkWith inner) := by
  intro data chk len h
  have := decodeChunkWith_ok_bounds inner data chk len h
  omega

/-- With a step function that makes progress, every iteration budget of at
least the length of the buffer gives the same result. -/
theorem decodeLoop_budget (dc : List Byte → Outcome Step) (hp : Progress dc) (k1 : Nat) :
    ∀ (k2 : Nat) (rest : List Byte) (ret : List Chunk),
      rest.length ≤ k1 → rest.length ≤ k2 →
      decodeLoop dc k1 rest ret = decodeLoop dc k2 rest ret := by
  induction k1 with
  | zero =>
    intro k2 rest ret h1 _
    have h0 : ¬ 0 < rest.length := by omega
    cases k2 <;> simp [decodeLoop, h0]
  | succ k1 ih =>
    intro k2 rest ret h1 h2
    by_cases h0 : 0 < rest.length
    · obtain ⟨k2, rfl⟩ : ∃ j, k2 = j + 1 := ⟨k2 - 1, by omega⟩
      simp only [decodeLoop, h0, if_true]
      apply Outcome.bind_congr
      intro s hs
      obtain ⟨chk, len, e⟩ := s
      cases e with
      | some e => rfl
      | none =>
        have := hp rest chk len hs
        exact ih _ _ _ (by simp only [List.length_drop]; omega)
          (by simp only [List.length_drop]; omega)
    · cases k2 <;> simp [decodeLoop, h0]

theorem skipGrpcHeaderIfNeeded_cases (data d : List Byte)
    (h : skipGrpcHeaderIfNeeded data = .ok d) : d = data ∨ d = data.drop 5 := by
  unfold skipGrpcHeaderIfNeeded at h
  split at h
  · simp at h
  · split_ifs at h with h1 h2
    · left; simpa using h.symm
    · rw [Outcome.bind_eq_ok] at h
      obtain ⟨n, -, hn⟩ := h
      split_ifs at hn
      · left; simpa using hn.symm
      · right; simpa using hn.symm

theorem skipGrpcHeaderIfNeeded_length (data d : List Byte)
    (h : skipGrpcHeaderIfNeeded data = .ok d) : d.length ≤ data.length := by
  rcases skipGrpcHeaderIfNeeded_cases data d h with rfl | rfl
  · exact le_rfl
  · simp

/-- Every nesting budget above the length of the buffer gives the same result. -/
theorem DecodeAllChunksFuel_budget (n : Nat) :
    ∀ (m : Nat) (data : List Byte), data.length < n → data.length < m →
      DecodeAllChunksFuel n data = DecodeAllChunksFuel m data := by
  induction n with
  | zero => intro m data h; omega
  | succ n ih =>
    intro m data hn hm
    obtain ⟨m, rfl⟩ : ∃ j, m = j + 1 := ⟨m - 1, by omega⟩
    simp only [DecodeAllChunksFuel]
    apply Outcome.bind_congr
    intro d hd
    have hlen := skipGrpcHeaderIfNeeded_length data d hd
    apply decodeLoop_congr
    intro s hs
    apply decodeChunkWith_congr
    intro t ht
    exact ih m t (by omega) (by omega)

/-- The defining equation of `DecodeAllChunks`: the framing step followed by
the field-decoding loop. -/
theorem DecodeAllChunks_eq (data : List Byte) :
    DecodeAllChunks data = (skipGrpcHeaderIfNeeded data).bind decodeFields := by
  unfold DecodeAllChunks decodeFields
  simp only [DecodeAllChunksFuel]
  apply Outcome.bind_congr
  intro d hd
  have hlen := skipGrpcHeaderIfNeeded_length data d hd
  apply decodeLoop_congr
  intro s hs
  unfold decodeChunk
  apply decodeChunkWith_congr
  intro t ht
  unfold DecodeAllChunks
  exact DecodeAllChunksFuel_budget _ _ t (by omega) (by omega)

theorem decodeChunk_progress : Progress decodeChunk :=
  decodeChunkWith_progress DecodeAllChunks

/-- The defining equation of the loop: an empty buffer gives no node; otherwise
one step is decoded and the loop continues behind it. -/
theorem decodeLoop_decodeChunk_step (k : Nat) (rest : List Byte) (ret : List Chunk)
    (hk : rest.length ≤ k) (h0 : 0 < rest.length) :
    decodeLoop decodeChunk k rest ret =
      (decodeChunk rest).bind fun s =>
        match s.2.2 with
        | some e => .ok (ret, some e)
        | none =>
          decodeLoop decodeChunk (rest.drop s.2.1).length (rest.drop s.2.1)
            (match s.1 with
             | some chunk => ret ++ [chunk]
             | none => ret) := by
  obtain ⟨k, rfl⟩ : ∃ j, k = j + 1 := ⟨k - 1, by omega⟩
  simp only [decodeLoop, h0, if_true]
  apply Outcome.bind_congr
  intro s hs
  obtain ⟨chk, len, e⟩ := s
  cases e with
  | some e => rfl
  | none =>
    have := decodeChunk_progress rest chk len hs
    exact decodeLoop_budget decodeChunk decodeChunk_progress _ _ _ _
      (by simp only [List.length_drop]; omega) le_rfl

/-! ## The budgets are never exhausted -/

theorem Outcome.bind_ne_fuel {α β : Type} (o : Outcome α) (f : α → Outcome β)
    (ho : o ≠ .fuel) (hf : ∀ a, o = .ok a → f a ≠ .fuel) : o.bind f ≠ .fuel := by
  cases o with
  | ok a => exact hf a rfl
  | panic => intro h; cases h
  | fuel => exact absurd rfl ho

theorem LittleEndianUint64_ne_fuel (l : List Byte) : LittleEndianUint64 l ≠ .fuel := by
  unfold LittleEndianUint64
  split <;> intro h <;> cases h

theorem LittleEndianUint32_ne_fuel (l : List Byte) : LittleEndianUint32 l ≠ .fuel := by
  unfold LittleEndianUint32
  split <;> intro h <;> cases h

theorem BigEndianUint32_ne_fuel (l : List Byte) : BigEndianUint32 l ≠ .fuel := by
  unfold BigEndianUint32
  split <;> intro h <;> cases h

theorem skipGrpcHeaderIfNeeded_ne_fuel (data : List Byte) :
    skipGrpcHeaderIfNeeded data ≠ .fuel := by
  unfold skipGrpcHeaderIfNeeded
  split
  · intro h; cases h
  · split_ifs
    · intro h; cases h
    · intro h; cases h
    · apply Outcome.bind_ne_fuel _ _ (BigEndianUint32_ne_fuel _)
      intro n _
      split_ifs <;> intro h <;> cases h

theorem decodeBytesCase_ne_fuel (inner : List Byte → Outcome Decoded) (data : List Byte)
    (pos chunkLen : Nat) (idt : IdType) (hpos : 0 < pos)
    (h : ∀ s : List Byte, s.length < data.length → inner s ≠ .fuel) :
    decodeBytesCase inner data pos chunkLen idt ≠ .fuel := by
  unfold decodeBytesCase
  simp only
  split_ifs with h1 h2 h3
  · intro hc; cases hc
  · intro hc; cases hc
  · intro hc; cases hc
  · apply Outcome.bind_ne_fuel _ _
      (h _ (by simp only [List.length_take, List.length_drop]; omega))
    intro r _
    split <;> intro hc <;> cases hc

theorem decodeChunkWith_ne_fuel (inner : List Byte → Outcome Decoded) (data : List Byte)
    (h : ∀ s : List Byte, s.length < data.length → inner s ≠ .fuel) :
    decodeChunkWith inner data ≠ .fuel := by
  unfold decodeChunkWith
  simp only
  split_ifs with h1 h2 h3 h4 h5 h6 h7
  · intro hc; cases hc
  · intro hc; cases hc
  · intro hc; cases hc
  · unfold decodeVarintCase
    simp only
    split_ifs <;> intro hc <;> cases hc
  · unfold decodeFixed64Case
    split_ifs
    · intro hc; cases hc
    · apply Outcome.bind_ne_fuel _ _ (LittleEndianUint64_ne_fuel _)
      intro v _ hc
      cases hc
  · exact decodeBytesCase_ne_fuel inner data _ _ _ (by omega) h
  · unfold decodeFixed32Case
    split_ifs
    · intro hc; cases hc
    · apply Outcome.bind_ne_fuel _ _ (LittleEndianUint32_ne_fuel _)
      intro v _ hc
      cases hc
  · intro hc; cases hc

theorem decodeLoop_ne_fuel (dc : List Byte → Outcome Step) (hp : Progress dc) (k : Nat) :
    ∀ (rest : List Byte) (ret : List Chunk), rest.length ≤ k →
      (∀ s : List Byte, s.length ≤ rest.length → dc s ≠ .fuel) →
      decodeLoop dc k rest ret ≠ .fuel := by
  induction k with
  | zero =>
    intro rest ret hk _
    simp only [decodeLoop]
    rw [if_neg (by omega)]
    intro hc
    cases hc
  | succ k ih =>
    intro rest ret hk hdc
    simp only [decodeLoop]
    split_ifs with h0
    · apply Outcome.bind_ne_fuel _ _ (hdc rest le_rfl)
      intro s hs
      obtain ⟨chk, len, e⟩ := s
      cases e with
      | some e => intro hc; cases hc
      | none =>
        have := hp rest chk len hs
        exact ih _ _ (by simp only [List.length_drop]; omega)
          (fun t ht => hdc t (by simp only [List.length_drop] at ht; omega))
    · intro hc
      cases hc

theorem DecodeAllChunksFuel_ne_fuel (n : Nat) :
    ∀ data : List Byte, data.length < n → DecodeAllChunksFuel n data ≠ .fuel := by
  induction n with
  | zero => intro data h; omega
  | succ n ih =>
    intro data hn
    simp only [DecodeAllChunksFuel]
    apply Outcome.bind_ne_fuel _ _ (skipGrpcHeaderIfNeeded_ne_fuel data)
    intro d hd
    have hlen := skipGrpcHeaderIfNeeded_length data d hd
    apply decodeLoop_ne_fuel _ (decodeChunkWith_progress _) _ _ _ le_rfl
    intro s hs
    apply decodeChunkWith_ne_fuel
    intro t ht
    exact ih t (by omega)

/-- `DecodeAllChunks` never exhausts its budgets: on every buffer it returns or
panics. -/
theorem DecodeAllChunks_ne_fuel (data : List Byte) : DecodeAllChunks data ≠ .fuel :=
  DecodeAllChunksFuel_ne_fuel _ data (Nat.lt_succ_self _)

theorem decodeChunk_ne_fuel (data : List Byte) : decodeChunk data ≠ .fuel :=
  decodeChunkWith_ne_fuel _ data (fun s _ => DecodeAllChunks_ne_fuel s)

theorem decodeFields_ne_fuel (data : List Byte) : decodeFields data ≠ .fuel :=
  decodeLoop_ne_fuel decodeChunk decodeChunk_progress _ data [] le_rfl
    (fun s _ => decodeChunk_ne_fuel s)

theorem Outcome.bind_assoc {α β γ : Type} (o : Outcome α) (f : α → Outcome β)
    (g : β → Outcome γ) : (o.bind f).bind g = o.bind fun a => (f a).bind g := by
  cases o <;> rfl

/-! ## The loop without its accumulator -/

theorem decodeLoop_ret (dc : List Byte → Outcome Step) (k : Nat) :
    ∀ (rest : List Byte) (ret : List Chunk),
      decodeLoop dc k rest ret =
        (decodeLoop dc k rest []).bind fun r => .ok (ret ++ r.1, r.2) := by
  induction k with
  | zero =>
    intro rest ret
    simp only [decodeLoop]
    split_ifs <;> simp
  | succ k ih =>
    intro rest ret
    simp only [decodeLoop]
    split_ifs with h0
    · rw [Outcome.bind_assoc]
      apply Outcome.bind_congr
      intro s _
      obtain ⟨chk, len, e⟩ := s
      cases e with
      | some e => simp
      | none =>
        cases chk with
        | none => simp only [List.append_nil]; exact ih _ _
        | some c =>
          simp only
          rw [ih _ (ret ++ [c]), ih _ ([] ++ [c]), Outcome.bind_assoc]
          simp
    · simp

theorem decodeLoop_trace (dc : List Byte → Outcome Step) (k : Nat) :
    ∀ rest : List Byte,
      decodeLoop dc k rest [] =
        (decodeTrace dc k rest).bind fun t => .ok (t.1.map Prod.fst, t.2) := by
  induction k with
  | zero =>
    intro rest
    simp only [decodeLoop, decodeTrace]
    split_ifs <;> simp
  | succ k ih =>
    intro rest
    simp only [decodeLoop, decodeTrace]
    split_ifs with h0
    · rw [Outcome.bind_assoc]
      apply Outcome.bind_congr
      intro s _
      obtain ⟨chk, len, e⟩ := s
      cases e with
      | some e => simp
      | none =>
        simp only
        rw [decodeLoop_ret, ih, Outcome.bind_assoc, Outcome.bind_assoc]
        apply Outcome.bind_congr
        intro t _
        cases chk <;> simp
    · simp

theorem decodeFields_trace (data : List Byte) :
    decodeFields data =
      (decodeFieldsTrace data).bind fun t => .ok (t.1.map Prod.fst, t.2) :=
  decodeLoop_trace decodeChunk data.length data

theorem decodeFields_nil : decodeFields [] = .ok ([], none) := rfl

/-- The defining equation of the field-decoding loop on a non-empty buffer. -/
theorem decodeFields_cons (data : List Byte) (h : data ≠ []) :
    decodeFields data =
      (decodeChunk data).bind fun s =>
        match s.2.2 with
        | some e => .ok ([], some e)
        | none =>
          (decodeFields (data.drop s.2.1)).bind fun r =>
            .ok ((match s.1 with
                  | some chunk => [chunk]
                  | none => []) ++ r.1, r.2) := by
  have h0 : 0 < data.length := List.length_pos.mpr h
  unfold decodeFields
  rw [decodeLoop_decodeChunk_step _ _ _ le_rfl h0]
  apply Outcome.bind_congr
  intro s _
  obtain ⟨chk, len, e⟩ := s
  cases e with
  | some e => rfl
  | none =>
    simp only
    rw [decodeLoop_ret]
    cases chk <;> simp

theorem decodeFields_step_ok (data : List Byte) (c : Chunk) (n : Nat) (h : data ≠ [])
    (hs : decodeChunk data = .ok (some c, n, none)) :
    decodeFields data = (decodeFields (data.drop n)).bind fun r => .ok (c :: r.1, r.2) := by
  rw [decodeFields_cons data h, hs]
  simp

theorem decodeFields_step_err (data : List Byte) (chk : Option Chunk) (n : Nat) (e : Err)
    (h : data ≠ []) (hs : decodeChunk data = .ok (chk, n, some e)) :
    decodeFields data = .ok ([], some e) := by
  rw [decodeFields_cons data h, hs]
  simp

/-! ## Normal forms of one decoding step -/

/-- Past the three checks on the key, `decodeChunk` is its switch. -/
theorem decodeChunkWith_switch (inner : List Byte → Outcome Decoded) (data : List Byte)
    (hk : 0 < (DecodeVarint data).2) (hlen : (DecodeVarint data).2 < data.length)
    (hf : (DecodeVarint data).1 >>> 3 ≤ 536870911) :
    decodeChunkWith inner data =
      if (DecodeVarint data).1 &&& 7 = 0 then
        decodeVarintCase data (DecodeVarint data).2 (DecodeVarint data).2 (keyIdType data)
      else if (DecodeVarint data).1 &&& 7 = 1 then
        decodeFixed64Case data (DecodeVarint data).2 (DecodeVarint data).2 (keyIdType data)
      else if (DecodeVarint data).1 &&& 7 = 3 ∨ (DecodeVarint data).1 &&& 7 = 4 ∨
          (DecodeVarint data).1 &&& 7 = 2 then
        decodeBytesCase inner data (DecodeVarint data).2 (DecodeVarint data).2 (keyIdType data)
      else if (DecodeVarint data).1 &&& 7 = 5 then
        decodeFixed32Case data (DecodeVarint data).2 (DecodeVarint data).2 (keyIdType data)
      else .ok (none, (DecodeVarint data).2,
        some (.unknownWireType ((DecodeVarint data).1 &&& 7) (DecodeVarint data).1)) := by
  have h10 := DecodeVarint_spec data
  unfold decodeChunkWith keyIdType
  simp only
  rw [if_neg (by omega), if_neg (by omega), if_neg (by omega)]

/-- A step that returns a node has passed the three checks on the key. -/
theorem decodeChunkWith_some_key (inner : List Byte → Outcome Decoded) (data : List Byte)
    (c : Chunk) (n : Nat) (e : Option Err)
    (h : decodeChunkWith inner data = .ok (some c, n, e)) :
    0 < (DecodeVarint data).2 ∧ (DecodeVarint data).2 < data.length ∧
      (DecodeVarint data).1 >>> 3 ≤ 536870911 := by
  unfold decodeChunkWith at h
  simp only at h
  split_ifs at h with h1 h2 h3
  all_goals first | omega | simp at h

/-- The length-delimited arm when the length varint is well formed and the
declared payload lies inside the buffer. -/
theorem decodeBytesCase_eq (inner : List Byte → Outcome Decoded) (data : List Byte)
    (pos : Nat) (idt : IdType)
    (hm : 0 < (DecodeVarint (data.drop pos)).2)
    (hb : pos + (DecodeVarint (data.drop pos)).2 + (DecodeVarint (data.drop pos)).1
      ≤ data.length)
    (h64 : data.length < 2 ^ 64) :
    decodeBytesCase inner data pos pos idt =
      (inner (payloadOf data pos)).bind fun r =>
        .ok (some (.Struct (payloadOf data pos).length idt (childrenOf r) (payloadOf data pos)),
          pos + (DecodeVarint (data.drop pos)).2 + (DecodeVarint (data.drop pos)).1, none) := by
  unfold decodeBytesCase payloadOf
  simp only
  have hmod : (pos + (DecodeVarint (data.drop pos)).2 + (DecodeVarint (data.drop pos)).1)
      % 2 ^ 64 = pos + (DecodeVarint (data.drop pos)).2 + (DecodeVarint (data.drop pos)).1 :=
    Nat.mod_eq_of_lt (by omega)
  rw [hmod, if_neg (by omega), if_neg (by omega), if_neg (by omega)]
  have hsub : pos + (DecodeVarint (data.drop pos)).2 + (DecodeVarint (data.drop pos)).1 -
      (pos + (DecodeVarint (data.drop pos)).2) = (DecodeVarint (data.drop pos)).1 := by omega
  rw [hsub]
  apply Outcome.bind_congr
  intro r _
  unfold childrenOf
  split <;> simp_all

/-- What a successful run of the length-delimited arm has established. -/
theorem decodeBytesCase_inv (inner : List Byte → Outcome Decoded) (data : List Byte)
    (pos : Nat) (idt : IdType) (chk : Option Chunk) (n : Nat)
    (h : decodeBytesCase inner data pos pos idt = .ok (chk, n, none)) :
    0 < (DecodeVarint (data.drop pos)).2 ∧
    pos + (DecodeVarint (data.drop pos)).2 + (DecodeVarint (data.drop pos)).1 ≤ data.length ∧
    n = pos + (DecodeVarint (data.drop pos)).2 + (DecodeVarint (data.drop pos)).1 ∧
    ∃ r, inner (payloadOf data pos) = .ok r ∧
      chk = some (.Struct (payloadOf data pos).length idt (childrenOf r) (payloadOf data pos)) := by
  have hv := DecodeVarint_spec (data.drop pos)
  have hcond : 0 < (DecodeVarint (data.drop pos)).2 ∧
      pos + (DecodeVarint (data.drop pos)).2 + (DecodeVarint (data.drop pos)).1 < 2 ^ 64 ∧
      pos + (DecodeVarint (data.drop pos)).2 + (DecodeVarint (data.drop pos)).1
        ≤ data.length := by
    unfold decodeBytesCase at h
    simp only at h
    split_ifs at h with h1 h2 h3
    · simp at h
    · simp at h
    · refine ⟨by omega, by omega, by omega⟩
  have hpay : payloadOf data pos =
      (data.drop (pos + (DecodeVarint (data.drop pos)).2)).take
        (DecodeVarint (data.drop pos)).1 := rfl
  unfold decodeBytesCase at h
  simp only at h
  have hmod : (pos + (DecodeVarint (data.drop pos)).2 + (DecodeVarint (data.drop pos)).1)
      % 2 ^ 64 = pos + (DecodeVarint (data.drop pos)).2 + (DecodeVarint (data.drop pos)).1 :=
    Nat.mod_eq_of_lt hcond.2.1
  have hsub : pos + (DecodeVarint (data.drop pos)).2 + (DecodeVarint (data.drop pos)).1 -
      (pos + (DecodeVarint (data.drop pos)).2) = (DecodeVarint (data.drop pos)).1 := by omega
  rw [hmod, if_neg (by omega), if_neg (by omega), if_neg (by omega), hsub, ← hpay,
    Outcome.bind_eq_ok] at h
  obtain ⟨r, hr, hres⟩ := h
  refine ⟨hcond.1, hcond.2.2, ?_, r, hr, ?_⟩
  · split at hres <;> simp_all
  · unfold childrenOf
    split at hres <;> simp_all

theorem decodeBytesCase_some (inner : List Byte → Outcome Decoded) (data : List Byte)
    (pos chunkLen : Nat) (idt : IdType) (c : Chunk) (n : Nat) (e : Option Err)
    (h : decodeBytesCase inner data pos chunkLen idt = .ok (some c, n, e)) : e = none := by
  unfold decodeBytesCase at h
  simp only at h
  split_ifs at h with h1 h2 h3
  · simp at h
  · simp at h
  · rw [Outcome.bind_eq_ok] at h
    obtain ⟨r, -, hres⟩ := h
    split at hres <;> simp_all

/-- What a step that returns a node has established: there is no error, the
node carries the `IdType` of the key, and a `Struct` holds the payload, its
length and the `Children` obtained from the inner decode of that payload. -/
theorem decodeChunkWith_some_inv (inner : List Byte → Outcome Decoded) (data : List Byte)
    (c : Chunk) (n : Nat) (e : Option Err)
    (h : decodeChunkWith inner data = .ok (some c, n, e)) :
    e = none ∧ c.idt = keyIdType data ∧
    ∀ (dl : Nat) (idt : IdType) (ch : List Chunk) (str : List Byte),
      c = .Struct dl idt ch str →
        str = payloadOf data (DecodeVarint data).2 ∧ dl = str.length ∧
        ∃ r, inner str = .ok r ∧ ch = childrenOf r := by
  obtain ⟨hk, hlen, hf⟩ := decodeChunkWith_some_key inner data c n e h
  rw [decodeChunkWith_switch inner data hk hlen hf] at h
  split_ifs at h with h0 h1 h2 h5
  · unfold decodeVarintCase at h
    simp only at h
    split_ifs at h
    · simp at h
    · simp at h
    · simp only [Outcome.ok.injEq, Prod.mk.injEq, Option.some.injEq] at h
      obtain ⟨rfl, -, rfl⟩ := h
      exact ⟨rfl, rfl, fun _ _ _ _ hc => by cases hc⟩
  · unfold decodeFixed64Case at h
    split_ifs at h
    · simp at h
    · rw [Outcome.bind_eq_ok] at h
      obtain ⟨v, -, hres⟩ := h
      simp only [Outcome.ok.injEq, Prod.mk.injEq, Option.some.injEq] at hres
      obtain ⟨rfl, -, rfl⟩ := hres
      exact ⟨rfl, rfl, fun _ _ _ _ hc => by cases hc⟩
  · have he := decodeBytesCase_some _ _ _ _ _ _ _ _ h
    subst he
    obtain ⟨-, -, -, r, hr, hc⟩ := decodeBytesCase_inv _ _ _ _ _ _ h
    simp only [Option.some.injEq] at hc
    subst hc
    refine ⟨rfl, rfl, ?_⟩
    intro dl idt ch str hs
    simp only [Chunk.Struct.injEq] at hs
    obtain ⟨rfl, rfl, rfl, rfl⟩ := hs
    exact ⟨rfl, rfl, r, hr, rfl⟩
  · unfold decodeFixed32Case at h
    split_ifs at h
    · simp at h
    · rw [Outcome.bind_eq_ok] at h
      obtain ⟨v, -, hres⟩ := h
      simp only [Outcome.ok.injEq, Prod.mk.injEq, Option.some.injEq] at hres
      obtain ⟨rfl, -, rfl⟩ := hres
      exact ⟨rfl, rfl, fun _ _ _ _ hc => by cases hc⟩
  · simp at h

/-! ## Inversion of the field-decoding loop -/

/-- How a result of the field-decoding loop came about: the buffer was empty; or
the first step returned an error; or the first step returned a node and the
loop went on behind it. -/
theorem decodeFields_inv (data : List Byte) (nodes : List Chunk) (e : Option Err)
    (h : decodeFields data = .ok (nodes, e)) :
    (data = [] ∧ nodes = [] ∧ e = none) ∨
    (data ≠ [] ∧ nodes = [] ∧ ∃ chk n e1, decodeChunk data = .ok (chk, n, some e1) ∧
      e = some e1) ∨
    (data ≠ [] ∧ ∃ c n rest, decodeChunk data = .ok (some c, n, none) ∧
      2 ≤ n ∧ n ≤ data.length ∧ decodeFields (data.drop n) = .ok (rest, e) ∧
      nodes = c :: rest) := by
  by_cases hd : data = []
  · subst hd
    rw [decodeFields_nil] at h
    simp only [Outcome.ok.injEq, Prod.mk.injEq] at h
    exact Or.inl ⟨rfl, h.1.symm, h.2.symm⟩
  · right
    rw [decodeFields_cons data hd, Outcome.bind_eq_ok] at h
    obtain ⟨⟨chk, n, e1⟩, hs, hres⟩ := h
    cases e1 with
    | some e1 =>
      left
      simp only [Outcome.ok.injEq, Prod.mk.injEq] at hres
      exact ⟨hd, hres.1.symm, chk, n, e1, hs, hres.2.symm⟩
    | none =>
      right
      obtain ⟨hchk, h2, hn⟩ := decodeChunkWith_ok_bounds _ _ _ _ hs
      obtain ⟨c, rfl⟩ := Option.ne_none_iff_exists'.mp hchk
      simp only at hres
      rw [Outcome.bind_eq_ok] at hres
      obtain ⟨⟨rest, e2⟩, hrest, hfin⟩ := hres
      simp only [Outcome.ok.injEq, Prod.mk.injEq, List.singleton_append] at hfin
      obtain ⟨rfl, rfl⟩ := hfin
      exact ⟨hd, c, n, rest, hs, h2, hn, hrest, rfl⟩

/-- Every node the field-decoding loop returns, with or without an error, was
returned by a call of `decodeChunk`. -/
theorem decodeFields_mem (n : Nat) : ∀ (data : List Byte) (nodes : List Chunk)
    (e : Option Err), data.length ≤ n → decodeFields data = .ok (nodes, e) →
    ∀ c ∈ nodes, ∃ d k, decodeChunk d = .ok (some c, k, none) := by
  induction n with
  | zero =>
    intro data nodes e hlen h c hc
    have hd : data = [] := List.length_eq_zero.mp (by omega)
    subst hd
    rw [decodeFields_nil] at h
    simp only [Outcome.ok.injEq, Prod.mk.injEq] at h
    rw [← h.1] at hc
    cases hc
  | succ n ih =>
    intro data nodes e hlen h c hc
    rcases decodeFields_inv data nodes e h with ⟨-, rfl, -⟩ | ⟨-, rfl, -⟩ |
      ⟨-, c1, k, rest, hs, h2, hk, hrest, rfl⟩
    · cases hc
    · cases hc
    · rcases List.mem_cons.mp hc with rfl | hmem
      · exact ⟨data, k, hs⟩
      · exact ih (data.drop k) rest e (by simp only [List.length_drop]; omega) hrest c hmem

theorem DecodeAllChunks_mem (data : List Byte) (nodes : List Chunk) (e : Option Err)
    (h : DecodeAllChunks data = .ok (nodes, e)) :
    ∀ c ∈ nodes, ∃ d k, decodeChunk d = .ok (some c, k, none) := by
  rw [DecodeAllChunks_eq, Outcome.bind_eq_ok] at h
  obtain ⟨d, -, hd⟩ := h
  exact decodeFields_mem d.length d nodes e le_rfl hd

/-- Every node nested in a node returned by `decodeChunk` was itself returned by
a call of `decodeChunk`. -/
theorem Within_produced (c top : Chunk) (hw : Within c top) :
    (∃ d k, decodeChunk d = .ok (some top, k, none)) →
    ∃ d k, decodeChunk d = .ok (some c, k, none) := by
  induction hw with
  | here => exact id
  | child d dl idt ch str hmem _ ih =>
    rintro ⟨buf, k, hs⟩
    apply ih
    obtain ⟨-, -, hstruct⟩ := decodeChunkWith_some_inv _ _ _ _ _ hs
    obtain ⟨-, -, r, hr, rfl⟩ := hstruct dl idt ch str rfl
    obtain ⟨nodes, e⟩ := r
    cases e with
    | none => exact DecodeAllChunks_mem str nodes none hr d hmem
    | some e => simp [childrenOf] at hmem

/-! ## The consumed counts of a clean run -/

theorem decodeFieldsTrace_of_decodeFields (d : List Byte) (nodes : List Chunk)
    (e : Option Err) (h : decodeFields d = .ok (nodes, e)) :
    ∃ t, decodeFieldsTrace d = .ok (t, e) ∧ t.map Prod.fst = nodes := by
  rw [decodeFields_trace, Outcome.bind_eq_ok] at h
  obtain ⟨⟨t, e1⟩, ht, hres⟩ := h
  simp only [Outcome.ok.injEq, Prod.mk.injEq] at hres
  obtain ⟨rfl, rfl⟩ := hres
  exact ⟨t, ht, rfl⟩

/-- In a run of the loop that ends without error the consumed counts of the
steps add up to the length of the buffer. -/
theorem decodeTrace_sum (inner : List Byte → Outcome Decoded) (k : Nat) :
    ∀ (rest : List Byte) (t : List (Chunk × Nat)),
      decodeTrace (decodeChunkWith inner) k rest = .ok (t, none) →
      (t.map Prod.snd).sum = rest.length := by
  induction k with
  | zero =>
    intro rest t h
    simp only [decodeTrace] at h
    split_ifs at h with h0
    simp only [Outcome.ok.injEq, Prod.mk.injEq] at h
    rw [← h.1]
    simp only [List.map_nil, List.sum_nil]
    omega
  | succ k ih =>
    intro rest t h
    simp only [decodeTrace] at h
    split_ifs at h with h0
    · rw [Outcome.bind_eq_ok] at h
      obtain ⟨⟨chk, n, e1⟩, hs, hres⟩ := h
      cases e1 with
      | some e1 => simp at hres
      | none =>
        obtain ⟨hchk, -, hn⟩ := decodeChunkWith_ok_bounds _ _ _ _ hs
        obtain ⟨c, rfl⟩ := Option.ne_none_iff_exists'.mp hchk
        simp only at hres
        rw [Outcome.bind_eq_ok] at hres
        obtain ⟨⟨t1, e2⟩, ht1, hfin⟩ := hres
        simp only [Outcome.ok.injEq, Prod.mk.injEq, List.singleton_append] at hfin
        obtain ⟨rfl, rfl⟩ := hfin
        have := ih _ _ ht1
        simp only [List.length_drop] at this
        simp only [List.map_cons, List.sum_cons]
        omega
    · simp only [Outcome.ok.injEq, Prod.mk.injEq] at h
      rw [← h.1]
      simp only [List.map_nil, List.sum_nil]
      omega

theorem decodeFieldsTrace_sum (d : List Byte) (t : List (Chunk × Nat))
    (h : decodeFieldsTrace d = .ok (t, none)) : (t.map Prod.snd).sum = d.length :=
  decodeTrace_sum DecodeAllChunks d.length d t h

/-- One step on a buffer that starts with a length-delimited field whose
declared payload lies inside the buffer: the inner decode runs on the payload and
the step returns a `Struct`. -/
theorem decodeChunk_bytes (data : List Byte)
    (hf : (DecodeVarint data).1 >>> 3 ≤ 536870911)
    (hw : (DecodeVarint data).1 &&& 7 = 2 ∨ (DecodeVarint data).1 &&& 7 = 3 ∨
      (DecodeVarint data).1 &&& 7 = 4)
    (hk : 0 < (DecodeVarint data).2)
    (hm : 0 < (DecodeVarint (data.drop (DecodeVarint data).2)).2)
    (hb : (DecodeVarint data).2 + (DecodeVarint (data.drop (DecodeVarint data).2)).2 +
      (DecodeVarint (data.drop (DecodeVarint data).2)).1 ≤ data.length)
    (h64 : data.length < 2 ^ 64) :
    decodeChunk data =
      (DecodeAllChunks (payloadOf data (DecodeVarint data).2)).bind fun r =>
        .ok (some (.Struct (payloadOf data (DecodeVarint data).2).length (keyIdType data)
            (childrenOf r) (payloadOf data (DecodeVarint data).2)),
          (DecodeVarint data).2 + (DecodeVarint (data.drop (DecodeVarint data).2)).2 +
            (DecodeVarint (data.drop (DecodeVarint data).2)).1, none) := by
  unfold decodeChunk
  rw [decodeChunkWith_switch _ _ hk (by omega) hf]
  have h0 : ¬ (DecodeVarint data).1 &&& 7 = 0 := by omega
  have h1 : ¬ (DecodeVarint data).1 &&& 7 = 1 := by omega
  have h2 : (DecodeVarint data).1 &&& 7 = 3 ∨ (DecodeVarint data).1 &&& 7 = 4 ∨
      (DecodeVarint data).1 &&& 7 = 2 := by omega
  rw [if_neg h0, if_neg h1, if_pos h2]
  exact decodeBytesCase_eq _ _ _ _ hm hb h64

/-! ## Bit operations as arithmetic -/

theorem or_shiftLeft_eq_add (a b s : Nat) (h : a < 2 ^ s) :
    a ||| b <<< s = a + b * 2 ^ s := by
  rw [Nat.or_comm, Nat.shiftLeft_eq, Nat.mul_comm, ← Nat.mul_add_lt_is_or h, Nat.add_comm]

theorem BigEndianUint32_eq (b0 b1 b2 b3 : Byte) (rest : List Byte) :
    BigEndianUint32 (b0 :: b1 :: b2 :: b3 :: rest) =
      .ok (b0.val * 2 ^ 24 + b1.val * 2 ^ 16 + b2.val * 2 ^ 8 + b3.val) := by
  have h0 := b0.isLt
  have h1 := b1.isLt
  have h2 := b2.isLt
  have h3 := b3.isLt
  simp only [BigEndianUint32]
  rw [or_shiftLeft_eq_add _ _ 8 (by omega), or_shiftLeft_eq_add _ _ 16 (by omega),
    or_shiftLeft_eq_add _ _ 24 (by omega)]
  congr 1
  omega

/-! ## Varints, keys and fixed-width values: decoding what the encoder wrote -/

theorem and_0x7F (x : Nat) : x &&& 0x7F = x % 128 := Nat.and_pow_two_sub_one_eq_mod x 7

set_option maxRecDepth 100000 in
theorem byte_and_0x80 (b : Byte) : b.val &&& 0x80 = 0 ↔ b.val < 128 := by
  revert b; decide

/-- One iteration of the loop on a final byte. -/
theorem DecodeVarintLoop_last (k shift x n v : Nat) (rest : List Byte)
    (hv : v < 128) (hx : x < 2 ^ shift) (h64 : v * 2 ^ shift < 2 ^ 64) :
    DecodeVarintLoop (k + 1) shift x n (byteOf v :: rest) = (x + v * 2 ^ shift, n + 1) := by
  have hb : (byteOf v).val = v := by simp only [byteOf]; omega
  simp only [DecodeVarintLoop, hb, and_0x7F]
  rw [if_pos (by rw [← hb]; exact (byte_and_0x80 _).mpr (by omega))]
  rw [Nat.mod_eq_of_lt hv, Nat.mod_eq_of_lt (by rw [Nat.shiftLeft_eq]; exact h64),
    or_shiftLeft_eq_add _ _ _ hx]

theorem putVarint_length_pos (k v : Nat) : 0 < (putVarint k v).length := by
  cases k with
  | zero => simp [putVarint]
  | succ k =>
    simp only [putVarint]
    split_ifs <;> simp

theorem putVarint_length_le (k : Nat) : ∀ v, (putVarint k v).length ≤ k + 1 := by
  induction k with
  | zero => intro v; simp [putVarint]
  | succ k ih =>
    intro v
    simp only [putVarint]
    split_ifs
    · simp
    · have := ih (v / 128)
      simp only [List.length_cons]
      omega

theorem DecodeVarintLoop_putVarint (k : Nat) : ∀ (shift x n v : Nat) (rest : List Byte),
    v < 128 ^ (k + 1) → x < 2 ^ shift → v * 2 ^ shift < 2 ^ 64 →
    DecodeVarintLoop (k + 1) shift x n (putVarint k v ++ rest) =
      (x + v * 2 ^ shift, n + (putVarint k v).length) := by
  induction k with
  | zero =>
    intro shift x n v rest hv hx h64
    simp only [putVarint, List.singleton_append, List.length_singleton]
    exact DecodeVarintLoop_last 0 shift x n v rest (by simpa using hv) hx h64
  | succ k ih =>
    intro shift x n v rest hv hx h64
    simp only [putVarint]
    split_ifs with hlt
    · simp only [List.singleton_append, List.length_singleton]
      exact DecodeVarintLoop_last _ shift x n v rest hlt hx h64
    · have hb : (byteOf (v % 128 + 128)).val = v % 128 + 128 := by
        simp only [byteOf]; omega
      have hpos : 0 < 2 ^ shift := by positivity
      have hsplit : v * 2 ^ shift = (v % 128) * 2 ^ shift + (v / 128) * 2 ^ (shift + 7) := by
        rw [pow_add]
        have : v = v % 128 + 128 * (v / 128) := (Nat.mod_add_div v 128).symm
        nlinarith [this]
      have hlow : (v % 128) * 2 ^ shift < 2 ^ 64 := by
        have : (v % 128) * 2 ^ shift ≤ v * 2 ^ shift :=
          Nat.mul_le_mul_right _ (Nat.mod_le v 128)
        omega
      have hx1 : x + (v % 128) * 2 ^ shift < 2 ^ (shift + 7) := by
        rw [pow_add]
        have : v % 128 < 128 := Nat.mod_lt _ (by decide)
        nlinarith
      simp only [List.cons_append, DecodeVarintLoop, hb, and_0x7F, List.length_cons]
      rw [if_neg (by rw [← hb, byte_and_0x80]; omega)]
      have hmod : (v % 128 + 128) % 128 = v % 128 := by omega
      rw [hmod, Nat.mod_eq_of_lt (by rw [Nat.shiftLeft_eq]; exact hlow),
        or_shiftLeft_eq_add _ _ _ hx]
      refine (ih (shift + 7) _ (n + 1) (v / 128) rest
        (by rw [pow_succ] at hv; omega) hx1 (by omega)).trans ?_
      congr 1
      · omega
      · omega

theorem DecodeVarint_encodeVarint (v : Nat) (rest : List Byte) (hv : v < 2 ^ 64) :
    DecodeVarint (encodeVarint v ++ rest) = (v, (encodeVarint v).length) := by
  unfold DecodeVarint encodeVarint
  rw [DecodeVarintLoop_putVarint 9 0 0 0 v rest (by norm_num; omega) (by norm_num) (by simpa using hv)]
  simp

theorem keyOf_eq (id t : Nat) (ht : t < 8) : keyOf id t = id * 8 + t := by
  unfold keyOf
  rw [Nat.or_comm, or_shiftLeft_eq_add t id 3 (by simpa using ht)]
  omega

theorem keyOf_shiftRight (id t : Nat) (ht : t < 8) : keyOf id t >>> 3 = id := by
  rw [keyOf_eq id t ht, Nat.shiftRight_eq_div_pow]
  omega

theorem keyOf_and (id t : Nat) (ht : t < 8) : keyOf id t &&& 7 = t := by
  rw [keyOf_eq id t ht]
  have := Nat.and_pow_two_sub_one_eq_mod (id * 8 + t) 3
  simp only [Nat.reducePow, Nat.add_one_sub_one] at this
  rw [this]
  omega

theorem firstByte_encodeVarint (v : Nat) (rest : List Byte) (hv : 0 < v) :
    firstByte (encodeVarint v ++ rest) ≠ 0 := by
  unfold encodeVarint
  rw [show putVarint 9 v = if v < 128 then [byteOf v]
    else byteOf (v % 128 + 128) :: putVarint 8 (v / 128) from rfl]
  split_ifs with h
  · simp only [List.singleton_append, firstByte, byteOf]
    omega
  · simp only [List.cons_append, firstByte, byteOf]
    omega

theorem LittleEndianUint32_bytes (v : Nat) (rest : List Byte) (hv : v < 2 ^ 32) :
    LittleEndianUint32 ((littleEndianBytes4 v ++ rest).take 4) = .ok v := by
  simp only [littleEndianBytes4, List.cons_append, List.nil_append, List.take_succ_cons,
    List.take_zero, LittleEndianUint32, byteOf]
  rw [or_shiftLeft_eq_add _ _ 8 (by omega), or_shiftLeft_eq_add _ _ 16 (by omega),
    or_shiftLeft_eq_add _ _ 24 (by omega)]
  congr 1
  omega

theorem LittleEndianUint64_bytes (v : Nat) (rest : List Byte) (hv : v < 2 ^ 64) :
    LittleEndianUint64 ((littleEndianBytes8 v ++ rest).take 8) = .ok v := by
  simp only [littleEndianBytes8, List.cons_append, List.nil_append, List.take_succ_cons,
    List.take_zero, LittleEndianUint64, byteOf]
  rw [or_shiftLeft_eq_add _ _ 8 (by omega), or_shiftLeft_eq_add _ _ 16 (by omega),
    or_shiftLeft_eq_add _ _ 24 (by omega), or_shiftLeft_eq_add _ _ 32 (by omega),
    or_shiftLeft_eq_add _ _ 40 (by omega), or_shiftLeft_eq_add _ _ 48 (by omega),
    or_shiftLeft_eq_add _ _ 56 (by omega)]
  congr 1
  omega
/-! ## The framing step -/

theorem skipGrpcHeaderIfNeeded_nonzero (d : List Byte) (h : firstByte d ≠ 0) :
    skipGrpcHeaderIfNeeded d = .ok d := by
  cases d with
  | nil => simp [firstByte] at h
  | cons b rest =>
    simp only [firstByte] at h
    simp [skipGrpcHeaderIfNeeded, h]

theorem skipGrpcHeaderIfNeeded_header (b0 b1 b2 b3 b4 : Byte) (rest : List Byte)
    (h : b0.val = 0) :
    skipGrpcHeaderIfNeeded (b0 :: b1 :: b2 :: b3 :: b4 :: rest) =
      .ok (if bigEndianValue [b1, b2, b3, b4] > rest.length % 2 ^ 32
        then b0 :: b1 :: b2 :: b3 :: b4 :: rest else rest) := by
  simp only [skipGrpcHeaderIfNeeded, h, ne_eq, not_true_eq_false, if_false, List.length_cons,
    List.drop_succ_cons, List.drop_zero, List.take_succ_cons, BigEndianUint32_eq,
    Outcome.bind_ok, bigEndianValue, List.foldl_cons, List.foldl_nil]
  rw [if_neg (by omega)]
  simp only [zero_mul, zero_add]
  have e : ((b1.val * 256 + b2.val) * 256 + b3.val) * 256 + b4.val =
      b1.val * 2 ^ 24 + b2.val * 2 ^ 16 + b3.val * 2 ^ 8 + b4.val := by omega
  rw [e]
  split_ifs <;> rfl

theorem skipGrpcHeaderIfNeeded_short (d : List Byte) (h0 : d ≠ []) (h : firstByte d = 0)
    (hlen : d.length < 5) : skipGrpcHeaderIfNeeded d = .panic := by
  cases d with
  | nil => exact absurd rfl h0
  | cons b rest =>
    simp only [firstByte] at h
    simp only [skipGrpcHeaderIfNeeded, h, ne_eq, not_true_eq_false, if_false]
    rw [if_pos hlen]

theorem DecodeAllChunks_nonzero (d : List Byte) (h : firstByte d ≠ 0) :
    DecodeAllChunks d = decodeFields d := by
  rw [DecodeAllChunks_eq, skipGrpcHeaderIfNeeded_nonzero d h]
  rfl

theorem bigEndianValue_bytes4 (n : Nat) (h : n < 2 ^ 32) :
    bigEndianValue (bigEndianBytes4 n) = n := by
  simp only [bigEndianValue, bigEndianBytes4, byteOf, List.foldl_cons, List.foldl_nil]
  omega

theorem DecodeAllChunks_header (b0 b1 b2 b3 b4 : Byte) (rest : List Byte) (h : b0.val = 0) :
    DecodeAllChunks (b0 :: b1 :: b2 :: b3 :: b4 :: rest) =
      if bigEndianValue [b1, b2, b3, b4] > rest.length % 2 ^ 32
      then decodeFields (b0 :: b1 :: b2 :: b3 :: b4 :: rest) else decodeFields rest := by
  rw [DecodeAllChunks_eq, skipGrpcHeaderIfNeeded_header _ _ _ _ _ _ h]
  split_ifs <;> rfl

/-! ## Decoding the encoding of one node -/

theorem encodeVarint_length_pos (v : Nat) : 0 < (encodeVarint v).length :=
  putVarint_length_pos 9 v

theorem encodeVarint_length_le (v : Nat) : (encodeVarint v).length ≤ 10 :=
  putVarint_length_le 9 v

theorem encodeVarint_append_ne_nil (v : Nat) (rest : List Byte) :
    encodeVarint v ++ rest ≠ [] := by
  intro h
  have hpos := encodeVarint_length_pos v
  rw [(List.append_eq_nil.mp h).1] at hpos
  exact Nat.lt_irrefl 0 hpos

theorem keyOf_lt (id t : Nat) (hid : id ≤ 536870911) (ht : t < 8) : keyOf id t < 2 ^ 64 := by
  rw [keyOf_eq id t ht]
  omega

/-- On a buffer that starts with the minimal varint of a key, `decodeChunk` is
its switch on the wire type of that key. -/
theorem decodeChunk_encoded_key (id t : Nat) (value : List Byte)
    (hid : id ≤ 536870911) (ht : t < 8) (hval : value ≠ []) :
    decodeChunk (encodeVarint (keyOf id t) ++ value) =
      if t = 0 then
        decodeVarintCase (encodeVarint (keyOf id t) ++ value) (encodeVarint (keyOf id t)).length
          (encodeVarint (keyOf id t)).length ⟨id, t, encodeVarint (keyOf id t)⟩
      else if t = 1 then
        decodeFixed64Case (encodeVarint (keyOf id t) ++ value) (encodeVarint (keyOf id t)).length
          (encodeVarint (keyOf id t)).length ⟨id, t, encodeVarint (keyOf id t)⟩
      else if t = 3 ∨ t = 4 ∨ t = 2 then
        decodeBytesCase DecodeAllChunks (encodeVarint (keyOf id t) ++ value)
          (encodeVarint (keyOf id t)).length (encodeVarint (keyOf id t)).length
          ⟨id, t, encodeVarint (keyOf id t)⟩
      else if t = 5 then
        decodeFixed32Case (encodeVarint (keyOf id t) ++ value) (encodeVarint (keyOf id t)).length
          (encodeVarint (keyOf id t)).length ⟨id, t, encodeVarint (keyOf id t)⟩
      else .ok (none, (encodeVarint (keyOf id t)).length,
        some (.unknownWireType t (keyOf id t))) := by
  have hD := DecodeVarint_encodeVarint (keyOf id t) value (keyOf_lt id t hid ht)
  have hpos := encodeVarint_length_pos (keyOf id t)
  have hvlen : 0 < value.length := List.length_pos.mpr hval
  unfold decodeChunk
  rw [decodeChunkWith_switch _ _ (by rw [hD]; exact hpos)
    (by rw [hD]; simp only [List.length_append]; omega)
    (by rw [hD]; simp only [keyOf_shiftRight id t ht]; exact hid)]
  simp only [keyIdType, hD, keyOf_shiftRight id t ht, keyOf_and id t ht, List.take_left']

theorem decodeChunk_encoded_varint (id v : Nat) (rest : List Byte)
    (hid : id ≤ 536870911) (hv : v < 2 ^ 64) :
    decodeChunk (encodeVarint (keyOf id 0) ++ (encodeVarint v ++ rest)) =
      .ok (some (.Varint v ⟨id, 0, encodeVarint (keyOf id 0)⟩),
        (encodeVarint (keyOf id 0)).length + (encodeVarint v).length, none) := by
  have hpos := encodeVarint_length_pos v
  rw [decodeChunk_encoded_key id 0 _ hid (by decide) (encodeVarint_append_ne_nil v rest)]
  rw [if_pos rfl]
  unfold decodeVarintCase
  simp only [List.drop_left', DecodeVarint_encodeVarint v rest hv, List.length_append]
  rw [if_neg (by omega), if_neg (by omega)]

theorem decodeChunk_encoded_fixed64 (id v : Nat) (rest : List Byte)
    (hid : id ≤ 536870911) (hv : v < 2 ^ 64) :
    decodeChunk (encodeVarint (keyOf id 1) ++ (littleEndianBytes8 v ++ rest)) =
      .ok (some (.Fixed64 v ⟨id, 1, encodeVarint (keyOf id 1)⟩),
        (encodeVarint (keyOf id 1)).length + 8, none) := by
  have h8 : (littleEndianBytes8 v).length = 8 := rfl
  rw [decodeChunk_encoded_key id 1 _ hid (by decide) (by simp [littleEndianBytes8])]
  rw [if_neg (by decide), if_pos rfl]
  unfold decodeFixed64Case
  simp only [List.drop_left', LittleEndianUint64_bytes v rest hv, List.length_append]
  rw [if_neg (by omega)]
  rfl

theorem decodeChunk_encoded_fixed32 (id v : Nat) (rest : List Byte)
    (hid : id ≤ 536870911) (hv : v < 2 ^ 32) :
    decodeChunk (encodeVarint (keyOf id 5) ++ (littleEndianBytes4 v ++ rest)) =
      .ok (some (.Fixed32 v ⟨id, 5, encodeVarint (keyOf id 5)⟩),
        (encodeVarint (keyOf id 5)).length + 4, none) := by
  have h4 : (littleEndianBytes4 v).length = 4 := rfl
  rw [decodeChunk_encoded_key id 5 _ hid (by decide) (by simp [littleEndianBytes4])]
  rw [if_neg (by decide), if_neg (by decide), if_neg (by decide), if_pos rfl]
  unfold decodeFixed32Case
  simp only [List.drop_left', LittleEndianUint32_bytes v rest hv, List.length_append]
  rw [if_neg (by omega)]
  rfl

theorem decodeChunk_encoded_struct (id t : Nat) (payload rest : List Byte) (cs : List Chunk)
    (hid : id ≤ 536870911) (ht : t = 2 ∨ t = 3 ∨ t = 4)
    (hlen : (encodeVarint (keyOf id t) ++
      (encodeVarint payload.length ++ (payload ++ rest))).length < 2 ^ 64)
    (hinner : DecodeAllChunks payload = .ok (cs, none)) :
    decodeChunk (encodeVarint (keyOf id t) ++
        (encodeVarint payload.length ++ (payload ++ rest))) =
      .ok (some (.Struct payload.length ⟨id, t, encodeVarint (keyOf id t)⟩ cs payload),
        (encodeVarint (keyOf id t)).length +
          ((encodeVarint payload.length).length + payload.length), none) := by
  have hpos := encodeVarint_length_pos payload.length
  have ht8 : t < 8 := by omega
  have hp64 : payload.length < 2 ^ 64 := by
    simp only [List.length_append] at hlen
    omega
  have hDL := DecodeVarint_encodeVarint payload.length (payload ++ rest) hp64
  rw [decodeChunk_encoded_key id t _ hid ht8 (encodeVarint_append_ne_nil _ _)]
  rw [if_neg (by omega), if_neg (by omega), if_pos (by omega)]
  have hpay : payloadOf (encodeVarint (keyOf id t) ++
      (encodeVarint payload.length ++ (payload ++ rest)))
      (encodeVarint (keyOf id t)).length = payload := by
    unfold payloadOf
    simp only [List.drop_left', hDL]
    rw [← List.append_assoc, ← List.length_append, List.drop_left, List.take_left]
  rw [decodeBytesCase_eq _ _ _ _
    (by simp only [List.drop_left', hDL]; exact hpos)
    (by simp only [List.drop_left', hDL, List.length_append]; omega) hlen]
  simp only [hpay, hinner, Outcome.bind_ok, List.drop_left', hDL, childrenOf]
  congr 3
  omega

theorem keyOf_pos (id t : Nat) (hid : 1 ≤ id) (ht : t < 8) : 0 < keyOf id t := by
  rw [keyOf_eq id t ht]
  omega

theorem Node.firstByte_encode (n : Node) (rest : List Byte) (hv : n.Valid) :
    firstByte (n.encode ++ rest) ≠ 0 := by
  cases n with
  | Varint id v =>
    simp only [Node.Valid] at hv
    simp only [Node.encode, List.append_assoc]
    exact firstByte_encodeVarint _ _ (keyOf_pos id 0 hv.1 (by decide))
  | Fixed64 id v =>
    simp only [Node.Valid] at hv
    simp only [Node.encode, List.append_assoc]
    exact firstByte_encodeVarint _ _ (keyOf_pos id 1 hv.1 (by decide))
  | Fixed32 id v =>
    simp only [Node.Valid] at hv
    simp only [Node.encode, List.append_assoc]
    exact firstByte_encodeVarint _ _ (keyOf_pos id 5 hv.1 (by decide))
  | Struct id t cs =>
    simp only [Node.Valid] at hv
    simp only [Node.encode, List.append_assoc]
    exact firstByte_encodeVarint _ _ (keyOf_pos id t hv.1 (by omega))

theorem firstByte_encodeNodes (l : List Node) (hne : l ≠ []) (hv : validNodes l) :
    firstByte (encodeNodes l) ≠ 0 := by
  cases l with
  | nil => exact absurd rfl hne
  | cons c cs =>
    simp only [validNodes] at hv
    simp only [encodeNodes]
    exact Node.firstByte_encode c _ hv.1

theorem ne_nil_of_firstByte (d : List Byte) (h : firstByte d ≠ 0) : d ≠ [] := by
  intro hd
  rw [hd] at h
  exact h rfl

mutual
/-- One step on the encoding of a valid node, whatever follows it, returns that
node and consumes exactly its encoding. -/
theorem Node.decodeChunk_encode : ∀ (n : Node) (rest : List Byte), n.Valid →
    (n.encode ++ rest).length < 2 ^ 64 →
    decodeChunk (n.encode ++ rest) = .ok (some n.toChunk, n.encode.length, none)
  | .Varint id v, rest, hv, _ => by
    simp only [Node.Valid] at hv
    simp only [Node.encode, Node.toChunk, List.append_assoc, List.length_append]
    exact decodeChunk_encoded_varint id v rest hv.2.1 hv.2.2
  | .Fixed64 id v, rest, hv, _ => by
    simp only [Node.Valid] at hv
    simp only [Node.encode, Node.toChunk, List.append_assoc, List.length_append]
    exact decodeChunk_encoded_fixed64 id v rest hv.2.1 hv.2.2
  | .Fixed32 id v, rest, hv, _ => by
    simp only [Node.Valid] at hv
    simp only [Node.encode, Node.toChunk, List.append_assoc, List.length_append]
    exact decodeChunk_encoded_fixed32 id v rest hv.2.1 hv.2.2
  | .Struct id t cs, rest, hv, hlen => by
    simp only [Node.Valid] at hv
    obtain ⟨-, hid, ht, hne, hcs⟩ := hv
    simp only [Node.encode, List.append_assoc] at hlen
    have hplen : (encodeNodes cs).length < 2 ^ 64 := by
      simp only [List.length_append] at hlen
      omega
    have hinner : DecodeAllChunks (encodeNodes cs) = .ok (toChunks cs, none) := by
      rw [DecodeAllChunks_nonzero _ (firstByte_encodeNodes cs hne hcs)]
      exact decodeFields_encodeNodes cs hcs hplen
    simp only [Node.encode, Node.toChunk, List.append_assoc, List.length_append]
    exact decodeChunk_encoded_struct id t (encodeNodes cs) rest (toChunks cs) hid ht hlen hinner
/-- The field-decoding loop on the encoding of valid nodes returns those nodes. -/
theorem decodeFields_encodeNodes : ∀ (l : List Node), validNodes l →
    (encodeNodes l).length < 2 ^ 64 →
    decodeFields (encodeNodes l) = .ok (toChunks l, none)
  | [], _, _ => by
    simp only [encodeNodes, toChunks]
    exact decodeFields_nil
  | c :: cs, hv, hlen => by
    simp only [validNodes] at hv
    simp only [encodeNodes] at hlen
    have hstep := Node.decodeChunk_encode c (encodeNodes cs) hv.1 hlen
    have hrest := decodeFields_encodeNodes cs hv.2 (by
      simp only [List.length_append] at hlen
      omega)
    have hne := ne_nil_of_firstByte _ (Node.firstByte_encode c (encodeNodes cs) hv.1)
    simp only [encodeNodes, toChunks]
    rw [decodeFields_step_ok _ _ _ hne hstep, List.drop_left, hrest]
    rfl
end

/-! ## Shapes of the leading varint -/

theorem DecodeVarintLoop_unterminated (k : Nat) : ∀ (shift x n : Nat) (buf : List Byte),
    (∀ b ∈ buf.take k, 128 ≤ b.val) → DecodeVarintLoop k shift x n buf = (0, 0) := by
  induction k with
  | zero => intro shift x n buf _; rfl
  | succ k ih =>
    intro shift x n buf h
    cases buf with
    | nil => rfl
    | cons b bs =>
      have hb : 128 ≤ b.val := h b (by simp)
      have hbit : ¬ b.val &&& 0x80 = 0 := by
        rw [byte_and_0x80]
        omega
      simp only [DecodeVarintLoop]
      rw [if_neg hbit]
      exact ih _ _ _ bs (fun c hc => h c (by simp [hc]))

/-- A buffer that `DecodeVarint` reads to its last byte as one varint: the step
fails for lack of a value byte, before the field number and the wire type are
looked at. -/
theorem decodeChunk_key_only (data : List Byte) (hk : 0 < (DecodeVarint data).2)
    (hall : (DecodeVarint data).2 = data.length) :
    decodeChunk data = .ok (none, 0, some .notEnoughAfterKey) := by
  have h10 := DecodeVarint_spec data
  have h1 : ¬((DecodeVarint data).2 ≤ 0 ∨ (DecodeVarint data).2 > 16) := by omega
  have h2 : (DecodeVarint data).2 ≥ data.length := by omega
  unfold decodeChunk decodeChunkWith
  simp only
  rw [if_neg h1, if_pos h2]

/-- A buffer whose first ten bytes (or all of its bytes) are continuation bytes:
the key does not decode. -/
theorem decodeChunk_key_unterminated (data : List Byte)
    (h : ∀ b ∈ data.take 10, 128 ≤ b.val) :
    decodeChunk data = .ok (none, 0, some .malformedKeyTypeLen) := by
  have hD : DecodeVarint data = (0, 0) := DecodeVarintLoop_unterminated 10 0 0 0 data h
  unfold decodeChunk decodeChunkWith
  simp only [hD]
  rw [if_pos (Or.inl (le_refl 0))]


/-! ## The errors of one decoding step -/

theorem decodeVarintCase_err (data : List Byte) (pos chunkLen : Nat) (idt : IdType)
    (chk : Option Chunk) (n : Nat) (e : Err)
    (h : decodeVarintCase data pos chunkLen idt = .ok (chk, n, some e)) :
    chk = none ∧ (e = .notEnoughVarint ∨ e = .failDecodeVarint) := by
  unfold decodeVarintCase at h
  simp only at h
  split_ifs at h <;> simp_all

theorem decodeFixed64Case_err (data : List Byte) (pos chunkLen : Nat) (idt : IdType)
    (chk : Option Chunk) (n : Nat) (e : Err)
    (h : decodeFixed64Case data pos chunkLen idt = .ok (chk, n, some e)) :
    chk = none ∧ e = .notEnoughFixed64 := by
  unfold decodeFixed64Case at h
  split_ifs at h
  · simp_all
  · rw [Outcome.bind_eq_ok] at h
    obtain ⟨v, -, hres⟩ := h
    simp at hres

theorem decodeFixed32Case_err (data : List Byte) (pos chunkLen : Nat) (idt : IdType)
    (chk : Option Chunk) (n : Nat) (e : Err)
    (h : decodeFixed32Case data pos chunkLen idt = .ok (chk, n, some e)) :
    chk = none ∧ e = .notEnoughFixed32 := by
  unfold decodeFixed32Case at h
  split_ifs at h
  · simp_all
  · rw [Outcome.bind_eq_ok] at h
    obtain ⟨v, -, hres⟩ := h
    simp at hres

theorem decodeBytesCase_err (inner : List Byte → Outcome Decoded) (data : List Byte)
    (pos chunkLen : Nat) (idt : IdType) (chk : Option Chunk) (n : Nat) (e : Err)
    (h : decodeBytesCase inner data pos chunkLen idt = .ok (chk, n, some e)) :
    chk = none ∧ (e = .failDecodeVarint ∨ e = .notEnoughString) := by
  unfold decodeBytesCase at h
  simp only at h
  split_ifs at h
  · simp_all
  · simp_all
  · rw [Outcome.bind_eq_ok] at h
    obtain ⟨r, -, hres⟩ := h
    split at hres <;> simp at hres

/-- Every error of a step comes with no node, and is `unknownWireType` only
when the wire-type bits of the key are 6 or 7. -/
theorem decodeChunkWith_err (inner : List Byte → Outcome Decoded) (data : List Byte)
    (chk : Option Chunk) (n : Nat) (e : Err)
    (h : decodeChunkWith inner data = .ok (chk, n, some e)) :
    chk = none ∧
    (e.kind = .UnknownWireType →
      ¬ (DecodeVarint data).1 &&& 7 ≤ 5 ∧
      e = .unknownWireType ((DecodeVarint data).1 &&& 7) (DecodeVarint data).1) := by
  unfold decodeChunkWith at h
  simp only at h
  split_ifs at h with h1 h2 h3 h4 h5 h6 h7
  · simp only [Outcome.ok.injEq, Prod.mk.injEq, Option.some.injEq] at h
    obtain ⟨rfl, -, rfl⟩ := h
    exact ⟨rfl, fun hk => by cases hk⟩
  · simp only [Outcome.ok.injEq, Prod.mk.injEq, Option.some.injEq] at h
    obtain ⟨rfl, -, rfl⟩ := h
    exact ⟨rfl, fun hk => by cases hk⟩
  · simp only [Outcome.ok.injEq, Prod.mk.injEq, Option.some.injEq] at h
    obtain ⟨rfl, -, rfl⟩ := h
    exact ⟨rfl, fun hk => by cases hk⟩
  · obtain ⟨hc, he⟩ := decodeVarintCase_err _ _ _ _ _ _ _ h
    refine ⟨hc, fun hk => ?_⟩
    rcases he with rfl | rfl <;> cases hk
  · obtain ⟨hc, rfl⟩ := decodeFixed64Case_err _ _ _ _ _ _ _ h
    exact ⟨hc, fun hk => by cases hk⟩
  · obtain ⟨hc, he⟩ := decodeBytesCase_err _ _ _ _ _ _ _ _ h
    refine ⟨hc, fun hk => ?_⟩
    rcases he with rfl | rfl <;> cases hk
  · obtain ⟨hc, rfl⟩ := decodeFixed32Case_err _ _ _ _ _ _ _ h
    exact ⟨hc, fun hk => by cases hk⟩
  · simp only [Outcome.ok.injEq, Prod.mk.injEq, Option.some.injEq] at h
    obtain ⟨rfl, -, rfl⟩ := h
    refine ⟨rfl, fun _ => ⟨?_, rfl⟩⟩
    have hlt : (DecodeVarint data).1 &&& 7 < 8 := by
      have := Nat.and_pow_two_sub_one_eq_mod (DecodeVarint data).1 3
      simp only [Nat.reducePow, Nat.add_one_sub_one] at this
      rw [this]
      omega
    omega

/-- Past the checks on the key, wire-type bits 6 and 7 give the error
`unknownWireType`. -/
theorem decodeChunk_unknown (data : List Byte)
    (hk : 0 < (DecodeVarint data).2) (hlen : (DecodeVarint data).2 < data.length)
    (hf : (DecodeVarint data).1 >>> 3 ≤ 536870911)
    (hw : (DecodeVarint data).1 &&& 7 = 6 ∨ (DecodeVarint data).1 &&& 7 = 7) :
    decodeChunk data = .ok (none, (DecodeVarint data).2,
      some (.unknownWireType ((DecodeVarint data).1 &&& 7) (DecodeVarint data).1)) := by
  unfold decodeChunk
  rw [decodeChunkWith_switch _ _ hk hlen hf]
  rw [if_neg (by omega), if_neg (by omega), if_neg (by omega), if_neg (by omega)]

/-- A key whose field number is above 536870911, followed by at least one byte. -/
theorem decodeChunk_field_too_large (data : List Byte)
    (hk : 0 < (DecodeVarint data).2) (hlen : (DecodeVarint data).2 < data.length)
    (hf : (DecodeVarint data).1 >>> 3 > 536870911) :
    decodeChunk data = .ok (none, 0, some .fieldNumberTooLarge) := by
  have h10 := DecodeVarint_spec data
  have h1 : ¬((DecodeVarint data).2 ≤ 0 ∨ (DecodeVarint data).2 > 16) := by omega
  have h2 : ¬ (DecodeVarint data).2 ≥ data.length := by omega
  unfold decodeChunk decodeChunkWith
  simp only
  rw [if_neg h1, if_neg h2, if_pos hf]


/-! ## Fixed-width values -/

theorem LittleEndianUint64_value (l : List Byte) (h : l.length = 8) :
    LittleEndianUint64 l = .ok (littleEndianValue l) := by
  match l, h with
  | [b0, b1, b2, b3, b4, b5, b6, b7], _ =>
    have h0 := b0.isLt
    have h1 := b1.isLt
    have h2 := b2.isLt
    have h3 := b3.isLt
    have h4 := b4.isLt
    have h5 := b5.isLt
    have h6 := b6.isLt
    have h7 := b7.isLt
    simp only [LittleEndianUint64, littleEndianValue, List.foldr_cons, List.foldr_nil]
    rw [or_shiftLeft_eq_add _ _ 8 (by omega), or_shiftLeft_eq_add _ _ 16 (by omega),
      or_shiftLeft_eq_add _ _ 24 (by omega), or_shiftLeft_eq_add _ _ 32 (by omega),
      or_shiftLeft_eq_add _ _ 40 (by omega), or_shiftLeft_eq_add _ _ 48 (by omega),
      or_shiftLeft_eq_add _ _ 56 (by omega)]
    congr 1
    omega

theorem LittleEndianUint32_value (l : List Byte) (h : l.length = 4) :
    LittleEndianUint32 l = .ok (littleEndianValue l) := by
  match l, h with
  | [b0, b1, b2, b3], _ =>
    have h0 := b0.isLt
    have h1 := b1.isLt
    have h2 := b2.isLt
    have h3 := b3.isLt
    simp only [LittleEndianUint32, littleEndianValue, List.foldr_cons, List.foldr_nil]
    rw [or_shiftLeft_eq_add _ _ 8 (by omega), or_shiftLeft_eq_add _ _ 16 (by omega),
      or_shiftLeft_eq_add _ _ 24 (by omega)]
    congr 1
    omega

theorem decodeChunk_fixed64 (data : List Byte)
    (hk : 0 < (DecodeVarint data).2) (hf : (DecodeVarint data).1 >>> 3 ≤ 536870911)
    (hw : (DecodeVarint data).1 &&& 7 = 1) (hb : (DecodeVarint data).2 + 8 ≤ data.length) :
    decodeChunk data =
      .ok (some (.Fixed64 (littleEndianValue ((data.drop (DecodeVarint data).2).take 8))
        (keyIdType data)), (DecodeVarint data).2 + 8, none) := by
  unfold decodeChunk
  rw [decodeChunkWith_switch _ _ hk (by omega) hf, if_neg (by omega), if_pos hw]
  unfold decodeFixed64Case
  rw [if_neg (by omega), LittleEndianUint64_value _
    (by simp only [List.length_take, List.length_drop]; omega)]
  rfl

theorem decodeChunk_fixed32 (data : List Byte)
    (hk : 0 < (DecodeVarint data).2) (hf : (DecodeVarint data).1 >>> 3 ≤ 536870911)
    (hw : (DecodeVarint data).1 &&& 7 = 5) (hb : (DecodeVarint data).2 + 4 ≤ data.length) :
    decodeChunk data =
      .ok (some (.Fixed32 (littleEndianValue ((data.drop (DecodeVarint data).2).take 4))
        (keyIdType data)), (DecodeVarint data).2 + 4, none) := by
  unfold decodeChunk
  rw [decodeChunkWith_switch _ _ hk (by omega) hf, if_neg (by omega), if_neg (by omega),
    if_neg (by omega), if_pos hw]
  unfold decodeFixed32Case
  rw [if_neg (by omega), LittleEndianUint32_value _
    (by simp only [List.length_take, List.length_drop]; omega)]
  rfl

/-- A fixed-width field with fewer value bytes than its width: the step fails
with one of the "not enough data" errors. -/
theorem decodeChunk_fixed_short (data : List Byte) (w : Nat)
    (hk : 0 < (DecodeVarint data).2) (hf : (DecodeVarint data).1 >>> 3 ≤ 536870911)
    (hw : ((DecodeVarint data).1 &&& 7 = 1 ∧ w = 8) ∨ ((DecodeVarint data).1 &&& 7 = 5 ∧ w = 4))
    (hb : data.length < (DecodeVarint data).2 + w) :
    ∃ n e, decodeChunk data = .ok (none, n, some e) ∧ e.kind = .TruncatedInput := by
  have h10 := DecodeVarint_spec data
  by_cases hlen : (DecodeVarint data).2 < data.length
  · unfold decodeChunk
    rw [decodeChunkWith_switch _ _ hk hlen hf]
    rcases hw with ⟨hw, rfl⟩ | ⟨hw, rfl⟩
    · rw [if_neg (by omega), if_pos hw]
      unfold decodeFixed64Case
      rw [if_pos (by omega)]
      exact ⟨_, _, rfl, rfl⟩
    · rw [if_neg (by omega), if_neg (by omega), if_neg (by omega), if_pos hw]
      unfold decodeFixed32Case
      rw [if_pos (by omega)]
      exact ⟨_, _, rfl, rfl⟩
  · have h1 : ¬((DecodeVarint data).2 ≤ 0 ∨ (DecodeVarint data).2 > 16) := by omega
    have h2 : (DecodeVarint data).2 ≥ data.length := by omega
    refine ⟨0, .notEnoughAfterKey, ?_, rfl⟩
    unfold decodeChunk decodeChunkWith
    simp only
    rw [if_neg h1, if_pos h2]

/-! ## A declared length beyond the buffer -/

/-- A length-delimited field whose declared payload ends beyond the buffer, the
sum of position and length staying below `2^64`: the step fails with "not
enough data for wire type 2(string)". -/
theorem decodeChunk_bytes_truncated (data : List Byte)
    (hf : (DecodeVarint data).1 >>> 3 ≤ 536870911)
    (hw : (DecodeVarint data).1 &&& 7 = 2 ∨ (DecodeVarint data).1 &&& 7 = 3 ∨
      (DecodeVarint data).1 &&& 7 = 4)
    (hk : 0 < (DecodeVarint data).2)
    (hm : 0 < (DecodeVarint (data.drop (DecodeVarint data).2)).2)
    (hb : data.length < (DecodeVarint data).2 +
      (DecodeVarint (data.drop (DecodeVarint data).2)).2 +
      (DecodeVarint (data.drop (DecodeVarint data).2)).1)
    (h64 : (DecodeVarint data).2 + (DecodeVarint (data.drop (DecodeVarint data).2)).2 +
      (DecodeVarint (data.drop (DecodeVarint data).2)).1 < 2 ^ 64) :
    decodeChunk data = .ok (none,
      (DecodeVarint data).2 + (DecodeVarint (data.drop (DecodeVarint data).2)).2,
      some .notEnoughString) := by
  have hv := DecodeVarint_spec (data.drop (DecodeVarint data).2)
  simp only [List.length_drop] at hv
  unfold decodeChunk
  rw [decodeChunkWith_switch _ _ hk (by omega) hf]
  rw [if_neg (by omega), if_neg (by omega), if_pos (by omega)]
  unfold decodeBytesCase
  simp only
  rw [if_neg (by omega), Nat.mod_eq_of_lt h64, if_pos (by omega)]

/-! ## Rendering a list of nodes -/

theorem foldl_render_eq {α : Type} (f : α → String) (l : List α) :
    ∀ acc : String, l.foldl (fun ret a => ret ++ f a) acc = acc ++ concatAll (l.map f) := by
  induction l with
  | nil => intro acc; simp [concatAll]
  | cons a l ih =>
    intro acc
    simp only [List.foldl_cons, List.map_cons, concatAll]
    rw [ih, String.append_assoc]

/-! ## The loop as consecutive steps -/

theorem Outcome.bind_ok_eta {α : Type} (o : Outcome (List α × Option Err)) :
    (o.bind fun r => .ok ([] ++ r.1, r.2)) = o := by
  cases o <;> simp

/-- The nodes the field-decoding loop returns are the results of error-free
steps at consecutive positions; without error the steps consume the whole
buffer, with an error they stop before its end, at a position where
`decodeChunk` returns that error. -/
theorem decodeFields_steps (n : Nat) : ∀ (d : List Byte) (nodes : List Chunk)
    (e : Option Err), d.length ≤ n → decodeFields d = .ok (nodes, e) →
    ∃ t : List (Chunk × Nat), t.map Prod.fst = nodes ∧ ConsecutiveSteps d t ∧
      (e = none → (t.map Prod.snd).sum = d.length) ∧
      (∀ err, e = some err → (t.map Prod.snd).sum < d.length ∧
        ∃ chk k, decodeChunk (d.drop (t.map Prod.snd).sum) = .ok (chk, k, some err)) := by
  induction n with
  | zero =>
    intro d nodes e hlen h
    have hd : d = [] := List.length_eq_zero.mp (by omega)
    subst hd
    rw [decodeFields_nil] at h
    simp only [Outcome.ok.injEq, Prod.mk.injEq] at h
    obtain ⟨rfl, rfl⟩ := h
    exact ⟨[], rfl, trivial, fun _ => rfl, fun err herr => by cases herr⟩
  | succ n ih =>
    intro d nodes e hlen h
    rcases decodeFields_inv d nodes e h with ⟨rfl, rfl, rfl⟩ |
      ⟨hne, rfl, chk, k, e1, hs, rfl⟩ | ⟨hne, c, k, rest, hs, h2, hk, hrest, rfl⟩
    · exact ⟨[], rfl, trivial, fun _ => rfl, fun err herr => by cases herr⟩
    · refine ⟨[], rfl, trivial, fun hc => (by cases hc), fun err herr => ?_⟩
      simp only [Option.some.injEq] at herr
      subst herr
      exact ⟨List.length_pos.mpr hne, chk, k, hs⟩
    · obtain ⟨t, ht, hsteps, hnone, hsome⟩ :=
        ih (d.drop k) rest e (by simp only [List.length_drop]; omega) hrest
      refine ⟨(c, k) :: t, by simp [ht], ⟨hs, hsteps⟩, ?_, ?_⟩
      · intro he
        have := hnone he
        simp only [List.length_drop] at this
        simp only [List.map_cons, List.sum_cons]
        omega
      · intro err herr
        obtain ⟨hlt, chk, k1, hs1⟩ := hsome err herr
        simp only [List.length_drop] at hlt
        simp only [List.map_cons, List.sum_cons]
        refine ⟨by omega, chk, k1, ?_⟩
        rw [List.drop_drop] at hs1
        exact hs1

/-! ## Bytes behind a decoded field do not change it -/

theorem DecodeVarintLoop_append (k : Nat) : ∀ (shift x n : Nat) (buf rest : List Byte),
    (DecodeVarintLoop k shift x n buf).2 ≠ 0 →
    DecodeVarintLoop k shift x n (buf ++ rest) = DecodeVarintLoop k shift x n buf := by
  induction k with
  | zero => intro shift x n buf rest _; rfl
  | succ k ih =>
    intro shift x n buf rest h
    cases buf with
    | nil => exact absurd rfl h
    | cons b bs =>
      simp only [List.cons_append, DecodeVarintLoop] at h ⊢
      split_ifs at h ⊢ with hb
      · rfl
      · exact ih _ _ _ bs rest h

theorem DecodeVarint_append (buf rest : List Byte) (h : (DecodeVarint buf).2 ≠ 0) :
    DecodeVarint (buf ++ rest) = DecodeVarint buf :=
  DecodeVarintLoop_append 10 0 0 0 buf rest h

theorem decodeVarintCase_append (x rest : List Byte) (pos chunkLen : Nat) (idt : IdType)
    (chk : Option Chunk) (n : Nat) (hpos : pos ≤ x.length)
    (h : decodeVarintCase x pos chunkLen idt = .ok (chk, n, none)) :
    decodeVarintCase (x ++ rest) pos chunkLen idt = .ok (chk, n, none) := by
  have hz := DecodeVarint_len_zero (x.drop pos)
  unfold decodeVarintCase at h ⊢
  simp only at h ⊢
  split_ifs at h with h1 h2
  · simp at h
  · simp at h
  · have hm : (DecodeVarint (x.drop pos)).2 ≠ 0 := fun hc => h2 ⟨hz hc, hc⟩
    rw [List.drop_append_of_le_length hpos, DecodeVarint_append _ rest hm,
      if_neg (by simp only [List.length_append]; omega), if_neg h2]
    exact h

theorem decodeFixed64Case_append (x rest : List Byte) (pos chunkLen : Nat) (idt : IdType)
    (chk : Option Chunk) (n : Nat)
    (h : decodeFixed64Case x pos chunkLen idt = .ok (chk, n, none)) :
    decodeFixed64Case (x ++ rest) pos chunkLen idt = .ok (chk, n, none) := by
  unfold decodeFixed64Case at h ⊢
  split_ifs at h with h1
  · simp at h
  · rw [if_neg (by simp only [List.length_append]; omega),
      List.drop_append_of_le_length (by omega),
      List.take_append_of_le_length (by simp only [List.length_drop]; omega)]
    exact h

theorem decodeFixed32Case_append (x rest : List Byte) (pos chunkLen : Nat) (idt : IdType)
    (chk : Option Chunk) (n : Nat)
    (h : decodeFixed32Case x pos chunkLen idt = .ok (chk, n, none)) :
    decodeFixed32Case (x ++ rest) pos chunkLen idt = .ok (chk, n, none) := by
  unfold decodeFixed32Case at h ⊢
  split_ifs at h with h1
  · simp at h
  · rw [if_neg (by simp only [List.length_append]; omega),
      List.drop_append_of_le_length (by omega),
      List.take_append_of_le_length (by simp only [List.length_drop]; omega)]
    exact h

theorem decodeBytesCase_append (inner : List Byte → Outcome Decoded) (x rest : List Byte)
    (pos chunkLen : Nat) (idt : IdType) (chk : Option Chunk) (n : Nat)
    (hpos : pos ≤ x.length)
    (h : decodeBytesCase inner x pos chunkLen idt = .ok (chk, n, none)) :
    decodeBytesCase inner (x ++ rest) pos chunkLen idt = .ok (chk, n, none) := by
  have hz := DecodeVarint_len_zero (x.drop pos)
  have hv := DecodeVarint_spec (x.drop pos)
  simp only [List.length_drop] at hv
  unfold decodeBytesCase at h ⊢
  simp only at h ⊢
  split_ifs at h with h1 h2 h3
  · simp at h
  · simp at h
  · have hm : (DecodeVarint (x.drop pos)).2 ≠ 0 := fun hc => h1 ⟨hz hc, hc⟩
    rw [List.drop_append_of_le_length hpos, DecodeVarint_append _ rest hm,
      if_neg h1, if_neg (by simp only [List.length_append]; omega), if_neg h3,
      List.drop_append_of_le_length (by omega),
      List.take_append_of_le_length (by simp only [List.length_drop]; omega)]
    exact h

/-- A step that decodes a field from `x` decodes the same field, with the same
consumed count, from `x` followed by any bytes. -/
theorem decodeChunk_append (x rest : List Byte) (c : Chunk) (n : Nat)
    (h : decodeChunk x = .ok (some c, n, none)) :
    decodeChunk (x ++ rest) = .ok (some c, n, none) := by
  obtain ⟨hk, hlen, hf⟩ := decodeChunkWith_some_key _ _ _ _ _ h
  have hD : DecodeVarint (x ++ rest) = DecodeVarint x :=
    DecodeVarint_append x rest (by omega)
  have hid : keyIdType (x ++ rest) = keyIdType x := by
    unfold keyIdType
    rw [hD, List.take_append_of_le_length (by omega)]
  unfold decodeChunk at h ⊢
  rw [decodeChunkWith_switch _ _ hk hlen hf] at h
  rw [decodeChunkWith_switch _ _ (by rw [hD]; exact hk)
    (by rw [hD]; simp only [List.length_append]; omega) (by rw [hD]; exact hf), hD, hid]
  split_ifs at h ⊢ with h0 h1 h2 h5
  · exact decodeVarintCase_append _ _ _ _ _ _ _ (by omega) h
  · exact decodeFixed64Case_append _ _ _ _ _ _ _ h
  · exact decodeBytesCase_append _ _ _ _ _ _ _ _ (by omega) h
  · exact decodeFixed32Case_append _ _ _ _ _ _ _ h
  · simp at h

theorem decodeFields_append (n : Nat) : ∀ (a : List Byte) (A : List Chunk),
    a.length ≤ n → decodeFields a = .ok (A, none) →
    ∀ b : List Byte,
      decodeFields (a ++ b) = (decodeFields b).bind fun r => .ok (A ++ r.1, r.2) := by
  induction n with
  | zero =>
    intro a A hlen h b
    have ha : a = [] := List.length_eq_zero.mp (by omega)
    subst ha
    rw [decodeFields_nil] at h
    simp only [Outcome.ok.injEq, Prod.mk.injEq] at h
    rw [← h.1, List.nil_append]
    exact (Outcome.bind_ok_eta _).symm
  | succ n ih =>
    intro a A hlen h b
    rcases decodeFields_inv a A none h with ⟨rfl, rfl, -⟩ | ⟨-, -, _, _, _, -, hc⟩ |
      ⟨hne, c, k, rest, hs, h2, hk, hrest, rfl⟩
    · rw [List.nil_append]
      exact (Outcome.bind_ok_eta _).symm
    · cases hc
    · have hne2 : a ++ b ≠ [] := by
        intro hc
        exact hne (List.append_eq_nil.mp hc).1
      rw [decodeFields_step_ok (a ++ b) c k hne2 (decodeChunk_append a b c k hs),
        List.drop_append_of_le_length hk,
        ih (a.drop k) rest (by simp only [List.length_drop]; omega) hrest b,
        Outcome.bind_assoc]
      apply Outcome.bind_congr
      intro r _
      simp

theorem firstByte_append (a b : List Byte) (hne : a ≠ []) :
    firstByte (a ++ b) = firstByte a := by
  cases a with
  | nil => exact absurd rfl hne
  | cons x xs => rfl

/-! ## The consumed count -/

theorem decodeVarintCase_len (data : List Byte) (pos : Nat) (idt : IdType)
    (chk : Option Chunk) (len : Nat)
    (h : decodeVarintCase data pos pos idt = .ok (chk, len, none)) :
    len = pos + (DecodeVarint (data.drop pos)).2 := by
  unfold decodeVarintCase at h
  simp only at h
  split_ifs at h <;> simp_all

theorem decodeFixed64Case_len (data : List Byte) (pos : Nat) (idt : IdType)
    (chk : Option Chunk) (len : Nat)
    (h : decodeFixed64Case data pos pos idt = .ok (chk, len, none)) : len = pos + 8 := by
  unfold decodeFixed64Case at h
  split_ifs at h
  · simp at h
  · rw [Outcome.bind_eq_ok] at h
    obtain ⟨v, -, hres⟩ := h
    simp only [Outcome.ok.injEq, Prod.mk.injEq] at hres
    exact hres.2.1.symm

theorem decodeFixed32Case_len (data : List Byte) (pos : Nat) (idt : IdType)
    (chk : Option Chunk) (len : Nat)
    (h : decodeFixed32Case data pos pos idt = .ok (chk, len, none)) : len = pos + 4 := by
  unfold decodeFixed32Case at h
  split_ifs at h
  · simp at h
  · rw [Outcome.bind_eq_ok] at h
    obtain ⟨v, -, hres⟩ := h
    simp only [Outcome.ok.injEq, Prod.mk.injEq] at hres
    exact hres.2.1.symm

/-- The consumed count of an error-free step is the length of the key plus the
encoded length of the value. -/
theorem decodeChunk_len (data : List Byte) (chk : Option Chunk) (len : Nat)
    (h : decodeChunk data = .ok (chk, len, none)) :
    len = (DecodeVarint data).2 + encodedValueLen data := by
  obtain ⟨hchk, -, -⟩ := decodeChunkWith_ok_bounds _ _ _ _ h
  obtain ⟨c, rfl⟩ := Option.ne_none_iff_exists'.mp hchk
  obtain ⟨hk, hlen, hf⟩ := decodeChunkWith_some_key _ _ _ _ _ h
  unfold decodeChunk at h
  rw [decodeChunkWith_switch _ _ hk hlen hf] at h
  unfold encodedValueLen
  split_ifs at h with h0 h1 h2 h5
  · rw [if_pos h0]
    exact decodeVarintCase_len _ _ _ _ _ h
  · rw [if_neg h0, if_pos h1]
    exact decodeFixed64Case_len _ _ _ _ _ h
  · obtain ⟨-, -, hn, -⟩ := decodeBytesCase_inv _ _ _ _ _ _ h
    rw [if_neg h0, if_neg h1, if_neg (by omega)]
    omega
  · rw [if_neg h0, if_neg h1, if_pos h5]
    exact decodeFixed32Case_len _ _ _ _ _ h
  · simp at h

theorem ConsecutiveSteps_bounds (t : List (Chunk × Nat)) : ∀ d : List Byte,
    ConsecutiveSteps d t → (∀ s ∈ t, 2 ≤ s.2) ∧ (t.map Prod.snd).sum ≤ d.length := by
  induction t with
  | nil => intro d _; simp
  | cons s t ih =>
    intro d h
    obtain ⟨hs, hrest⟩ := h
    obtain ⟨-, h2, hle⟩ := decodeChunkWith_ok_bounds _ _ _ _ hs
    obtain ⟨hall, hsum⟩ := ih _ hrest
    simp only [List.length_drop] at hsum
    refine ⟨?_, ?_⟩
    · intro s1 hs1
      rcases List.mem_cons.mp hs1 with rfl | hmem
      · exact h2
      · exact hall s1 hmem
    · simp only [List.map_cons, List.sum_cons]
      omega

theorem decodeChunk_struct_shorter (data : List Byte) (dl : Nat) (idt : IdType)
    (ch : List Chunk) (str : List Byte) (n : Nat) (e : Option Err)
    (h : decodeChunk data = .ok (some (.Struct dl idt ch str), n, e)) :
    str.length + 2 ≤ data.length := by
  obtain ⟨hk, hlen, -⟩ := decodeChunkWith_some_key _ _ _ _ _ h
  obtain ⟨rfl, -, hstruct⟩ := decodeChunkWith_some_inv _ _ _ _ _ h
  obtain ⟨rfl, -, -⟩ := hstruct dl idt ch str rfl
  obtain ⟨-, h2, hle⟩ := decodeChunkWith_ok_bounds _ _ _ _ h
  have hlen2 := decodeChunk_len _ _ _ h
  have hv := DecodeVarint_spec (data.drop (DecodeVarint data).2)
  unfold payloadOf
  simp only [List.length_take, List.length_drop]
  unfold encodedValueLen at hlen2
  split_ifs at hlen2 <;> omega

/-! ## C1: decoding a valid wire encoding -/

/-- C1 fails on the code. `0A 00` is a valid wire encoding, field 1 of wire type
2 with a payload of length 0 (the canonical encoding of a `Struct` without
children), and so is `08 01 12 01 00`, whose second field has the one-byte
payload `00`; on both `DecodeAllChunks` does not return: the inner
`DecodeAllChunks(str)` runs the framing step on a payload that is empty or
shorter than a frame header, and the run panics. -/
theorem DecodeAllChunks_valid_encoding_panics :
    encodeNodes [.Struct 1 2 []] = [0x0A, 0x00] ∧
    DecodeAllChunks [0x0A, 0x00] = .panic ∧
    DecodeAllChunks [0x08, 0x01, 0x12, 0x01, 0x00] = .panic :=
  ⟨rfl, rfl, rfl⟩

/-! ## C2: round trip -/

/-- C2. For every non-empty list of nodes with field numbers in `1..536870911`,
values that fit their type, and in which every `Struct` has wire type 2, 3 or 4
and, recursively, a non-empty list of children, `DecodeAllChunks` applied to the
canonical encoding (shorter than `2^64` bytes) returns no error and exactly
those nodes in the same order: same `Id`, `Type`, key bytes and value; for a
`Struct`, `Str` the encoded children, `DataLen` its length and `Children` the
children. -/
theorem DecodeAllChunks_encodeNodes (nodes : List Node) (hne : nodes ≠ [])
    (hv : validNodes nodes) (hlen : (encodeNodes nodes).length < 2 ^ 64) :
    DecodeAllChunks (encodeNodes nodes) = .ok (toChunks nodes, none) := by
  rw [DecodeAllChunks_nonzero _ (firstByte_encodeNodes nodes hne hv)]
  exact decodeFields_encodeNodes nodes hv hlen

/-- C2 at its two instances: `08 96 01` is the encoding of one `Varint` with field
1 and value 150, `12 02 08 01` that of one `Struct` with field 2, wire type 2 and
the child `Varint` field 1 value 1. -/
theorem DecodeAllChunks_encodeNodes_witness :
    DecodeAllChunks [0x08, 0x96, 0x01] = .ok ([.Varint 150 ⟨1, 0, [0x08]⟩], none) ∧
    DecodeAllChunks [0x12, 0x02, 0x08, 0x01] =
      .ok ([.Struct 2 ⟨2, 2, [0x12]⟩ [.Varint 1 ⟨1, 0, [0x08]⟩] [0x08, 0x01]], none) :=
  ⟨DecodeAllChunks_encodeNodes [.Varint 1 150] (by simp)
      (by simp [validNodes, Node.Valid]) (by decide),
   DecodeAllChunks_encodeNodes [.Struct 2 2 [.Varint 1 1]] (by simp)
      (by simp [validNodes, Node.Valid]) (by decide)⟩

/-! ## C3: the length-delimited arm -/

/-- C3 fails on the code. `12 00` begins with a key of field 2 and wire type 2
followed by the length varint 0, and `1A 01 00` with a key of field 3 and wire
type 2, the length varint 1 and one payload byte; on both `decodeChunk` returns
neither a `Struct` nor an error: the inner decode of the payload panics and the
panic ends the step. -/
theorem decodeChunk_payload_panics :
    (DecodeVarint [0x12, 0x00] = (0x12, 1) ∧ DecodeVarint [0x00] = (0, 1) ∧
      decodeChunk [0x12, 0x00] = .panic) ∧
    (DecodeVarint [0x1A, 0x01, 0x00] = (0x1A, 1) ∧ DecodeVarint [0x01, 0x00] = (1, 1) ∧
      decodeChunk [0x1A, 0x01, 0x00] = .panic) :=
  ⟨⟨rfl, rfl, rfl⟩, ⟨rfl, rfl, rfl⟩⟩

/-! ## C4: the children of a `Struct` -/

/-- C4, as stated, fails. The payload `00 00000002 08 01` of the field
`12 07 ...` starts with a frame header, which the inner decode strips: the
`Struct` has the single child decoded from `08 01`, whose consumed count is 2,
while decoding the 7 payload bytes field by field from the first byte gives two
other nodes and an error. -/
theorem Struct_children_skip_frame_header :
    decodeChunk [0x12, 0x07, 0, 0, 0, 0, 2, 0x08, 0x01] =
      .ok (some (.Struct 7 ⟨2, 2, [0x12]⟩ [.Varint 1 ⟨1, 0, [0x08]⟩]
        [0, 0, 0, 0, 2, 0x08, 0x01]), 9, none) ∧
    decodeFields [0, 0, 0, 0, 2, 0x08, 0x01] =
      .ok ([.Varint 0 ⟨0, 0, [0]⟩, .Varint 0 ⟨0, 0, [0]⟩], some .notEnoughString) ∧
    decodeFieldsTrace [0x08, 0x01] = .ok ([(.Varint 1 ⟨1, 0, [0x08]⟩, 2)], none) :=
  ⟨rfl, rfl, rfl⟩

/-- C4, amended. For every `Struct` node at any depth of a `DecodeAllChunks`
result whose `Children` is non-empty: `DataLen = len(Str)`, and `Children` is
exactly the list obtained, with no decode error, by decoding field by field the
buffer `d` that the framing step returns for `Str` - `Str` itself, or `Str`
without a leading 5-byte frame header, and `Str` itself whenever `Str` does not
start with `0x00`; the consumed counts of those fields sum to `len(d)`. -/
theorem Struct_children_decoded (data : List Byte) (nodes : List Chunk) (e : Option Err)
    (top : Chunk) (dl : Nat) (idt : IdType) (ch : List Chunk) (str : List Byte)
    (h : DecodeAllChunks data = .ok (nodes, e)) (ht : top ∈ nodes)
    (hw : Within (.Struct dl idt ch str) top) (hne : ch ≠ []) :
    dl = str.length ∧
    ∃ (d : List Byte) (t : List (Chunk × Nat)),
      skipGrpcHeaderIfNeeded str = .ok d ∧ (d = str ∨ d = str.drop 5) ∧
      (firstByte str ≠ 0 → d = str) ∧
      decodeFields d = .ok (ch, none) ∧
      decodeFieldsTrace d = .ok (t, none) ∧ t.map Prod.fst = ch ∧
      (t.map Prod.snd).sum = d.length := by
  obtain ⟨buf, k, hs⟩ := Within_produced _ top hw (DecodeAllChunks_mem data nodes e h top ht)
  obtain ⟨-, -, hstruct⟩ := decodeChunkWith_some_inv _ _ _ _ _ hs
  obtain ⟨-, hdl, ⟨r1, r2⟩, hr, hch⟩ := hstruct dl idt ch str rfl
  cases r2 with
  | some e2 => exact absurd hch hne
  | none =>
    simp only [childrenOf] at hch
    subst hch
    rw [DecodeAllChunks_eq, Outcome.bind_eq_ok] at hr
    obtain ⟨d, hd, hfields⟩ := hr
    obtain ⟨t, ht1, ht2⟩ := decodeFieldsTrace_of_decodeFields d ch none hfields
    refine ⟨hdl, d, t, hd, skipGrpcHeaderIfNeeded_cases str d hd, ?_, hfields, ht1, ht2,
      decodeFieldsTrace_sum d t ht1⟩
    intro h0
    rw [skipGrpcHeaderIfNeeded_nonzero str h0] at hd
    simp only [Outcome.ok.injEq] at hd
    exact hd.symm

/-- C4, amended, at the `Struct` decoded from `12 02 08 01`. -/
theorem Struct_children_decoded_witness :
    2 = ([0x08, 0x01] : List Byte).length ∧
    ∃ (d : List Byte) (t : List (Chunk × Nat)),
      skipGrpcHeaderIfNeeded [0x08, 0x01] = .ok d ∧
      (d = [0x08, 0x01] ∨ d = ([0x08, 0x01] : List Byte).drop 5) ∧
      (firstByte [0x08, 0x01] ≠ 0 → d = [0x08, 0x01]) ∧
      decodeFields d = .ok ([.Varint 1 ⟨1, 0, [0x08]⟩], none) ∧
      decodeFieldsTrace d = .ok (t, none) ∧ t.map Prod.fst = [.Varint 1 ⟨1, 0, [0x08]⟩] ∧
      (t.map Prod.snd).sum = d.length :=
  Struct_children_decoded [0x12, 0x02, 0x08, 0x01]
    [.Struct 2 ⟨2, 2, [0x12]⟩ [.Varint 1 ⟨1, 0, [0x08]⟩] [0x08, 0x01]] none
    (.Struct 2 ⟨2, 2, [0x12]⟩ [.Varint 1 ⟨1, 0, [0x08]⟩] [0x08, 0x01])
    2 ⟨2, 2, [0x12]⟩ [.Varint 1 ⟨1, 0, [0x08]⟩] [0x08, 0x01]
    rfl (List.Mem.head _) (Within.here _) (by simp)

/-! ## C5: the ambiguity rule -/

/-- C5, as stated, fails. The six payload bytes `00 00 00 00 00 00` are consumed
exactly and without error by the field decoder applied from the first byte
(three fields), yet `decodeChunk` on `12 06 00 00 00 00 00 00` returns a `Struct`
with no `Children`: the inner decode strips the first five bytes as a frame
header and fails on the byte that is left. -/
theorem decodeChunk_clean_payload_not_nested :
    decodeFields [0, 0, 0, 0, 0, 0] =
      .ok ([.Varint 0 ⟨0, 0, [0]⟩, .Varint 0 ⟨0, 0, [0]⟩, .Varint 0 ⟨0, 0, [0]⟩], none) ∧
    decodeChunk [0x12, 0x06, 0, 0, 0, 0, 0, 0] =
      .ok (some (.Struct 6 ⟨2, 2, [0x12]⟩ [] [0, 0, 0, 0, 0, 0]), 8, none) :=
  ⟨rfl, rfl⟩

/-- C5, amended. For every buffer (shorter than `2^64` bytes) that starts with a
length-delimited field (wire type 2, 3 or 4, field number at most 536870911)
whose non-empty payload is left unchanged by the framing step - as is every
payload that does not start with `0x00` - and is consumed exactly and without
error by applying `decodeChunk` repeatedly from its first byte to its end,
`decodeChunk` returns a `Struct` whose `Children` is that list of decoded
fields, and the list is non-empty. -/
theorem decodeChunk_clean_payload_nested (data : List Byte) (cs : List Chunk)
    (hf : (DecodeVarint data).1 >>> 3 ≤ 536870911)
    (hw : (DecodeVarint data).1 &&& 7 = 2 ∨ (DecodeVarint data).1 &&& 7 = 3 ∨
      (DecodeVarint data).1 &&& 7 = 4)
    (hk : 0 < (DecodeVarint data).2)
    (hm : 0 < (DecodeVarint (data.drop (DecodeVarint data).2)).2)
    (hb : (DecodeVarint data).2 + (DecodeVarint (data.drop (DecodeVarint data).2)).2 +
      (DecodeVarint (data.drop (DecodeVarint data).2)).1 ≤ data.length)
    (h64 : data.length < 2 ^ 64)
    (hne : payloadOf data (DecodeVarint data).2 ≠ [])
    (hskip : skipGrpcHeaderIfNeeded (payloadOf data (DecodeVarint data).2) =
      .ok (payloadOf data (DecodeVarint data).2))
    (hclean : decodeFields (payloadOf data (DecodeVarint data).2) = .ok (cs, none)) :
    decodeChunk data =
      .ok (some (.Struct (DecodeVarint (data.drop (DecodeVarint data).2)).1 (keyIdType data)
          cs (payloadOf data (DecodeVarint data).2)),
        (DecodeVarint data).2 + (DecodeVarint (data.drop (DecodeVarint data).2)).2 +
          (DecodeVarint (data.drop (DecodeVarint data).2)).1, none) ∧
    cs ≠ [] := by
  have hall : DecodeAllChunks (payloadOf data (DecodeVarint data).2) = .ok (cs, none) := by
    rw [DecodeAllChunks_eq, hskip]
    exact hclean
  have hplen : (payloadOf data (DecodeVarint data).2).length =
      (DecodeVarint (data.drop (DecodeVarint data).2)).1 := by
    unfold payloadOf
    simp only [List.length_take, List.length_drop]
    omega
  constructor
  · rw [decodeChunk_bytes data hf hw hk hm hb h64, hall, ← hplen]
    rfl
  · rcases decodeFields_inv _ _ _ hclean with ⟨h1, -, -⟩ | ⟨-, -, _, _, _, -, h2⟩ |
      ⟨-, c, n, rest, -, -, -, -, h3⟩
    · exact absurd h1 hne
    · cases h2
    · rw [h3]
      exact List.cons_ne_nil c rest

/-- C5, amended, at `12 02 08 01`. -/
theorem decodeChunk_clean_payload_nested_witness :
    decodeChunk [0x12, 0x02, 0x08, 0x01] =
      .ok (some (.Struct 2 ⟨2, 2, [0x12]⟩ [.Varint 1 ⟨1, 0, [0x08]⟩] [0x08, 0x01]), 4, none) ∧
    [Chunk.Varint 1 ⟨1, 0, [0x08]⟩] ≠ [] :=
  decodeChunk_clean_payload_nested [0x12, 0x02, 0x08, 0x01] [.Varint 1 ⟨1, 0, [0x08]⟩]
    (by decide) (by decide) (by decide) (by decide) (by decide) (by decide) (by decide)
    rfl rfl

/-! ## C6: the field number of a node -/

/-- C6, as stated, fails: the lower bound `1 <= Id` is not enforced. In the
buffer `08 01 00 01` the second key is `0x00`, field number 0; decoding does not
fail and returns a node whose `Id` is 0. -/
theorem DecodeAllChunks_returns_field_zero :
    DecodeAllChunks [0x08, 0x01, 0x00, 0x01] =
      .ok ([.Varint 1 ⟨1, 0, [0x08]⟩, .Varint 1 ⟨0, 0, [0x00]⟩], none) ∧
    (Chunk.Varint 1 ⟨0, 0, [0x00]⟩).Id = 0 :=
  ⟨rfl, rfl⟩

/-- C6, amended. Every node returned by `DecodeAllChunks`, at the top level or
nested anywhere in `Struct.Children`, with or without an accompanying error,
has `Id <= 536870911`; and a buffer whose key has a field number above
536870911 makes `decodeChunk`, and with it the loop on that buffer, return an
error and no node. -/
theorem DecodeAllChunks_Id_le (data : List Byte) :
    (∀ (nodes : List Chunk) (e : Option Err) (top c : Chunk),
      DecodeAllChunks data = .ok (nodes, e) → top ∈ nodes → Within c top →
      c.Id ≤ 536870911) ∧
    (0 < (DecodeVarint data).2 → (DecodeVarint data).1 >>> 3 > 536870911 →
      ∃ err, decodeChunk data = .ok (none, 0, some err) ∧
        decodeFields data = .ok ([], some err)) := by
  constructor
  · intro nodes e top c h ht hw
    obtain ⟨buf, k, hs⟩ := Within_produced c top hw (DecodeAllChunks_mem data nodes e h top ht)
    obtain ⟨-, hid, -⟩ := decodeChunkWith_some_inv _ _ _ _ _ hs
    obtain ⟨-, -, hf⟩ := decodeChunkWith_some_key _ _ _ _ _ hs
    unfold Chunk.Id
    rw [hid]
    exact hf
  · intro hk hf
    have h10 := DecodeVarint_spec data
    have hne : data ≠ [] := by
      intro hd
      rw [hd] at hk
      exact Nat.lt_irrefl 0 hk
    have hstep : ∃ err, decodeChunk data = .ok (none, 0, some err) := by
      have h1 : ¬((DecodeVarint data).2 ≤ 0 ∨ (DecodeVarint data).2 > 16) := by omega
      unfold decodeChunk decodeChunkWith
      simp only
      rw [if_neg h1]
      split_ifs with h2
      · exact ⟨_, rfl⟩
      · exact ⟨_, rfl⟩
    obtain ⟨err, herr⟩ := hstep
    exact ⟨err, herr, decodeFields_step_err data none 0 err hne herr⟩

/-- C6, amended, at `12 02 08 01` (nested node) and at the six-byte buffer whose
key `80 80 80 80 10` has field number `2^29`. -/
theorem DecodeAllChunks_Id_le_witness :
    (Chunk.Varint 1 ⟨1, 0, [0x08]⟩).Id ≤ 536870911 ∧
    ∃ err, decodeChunk [0x80, 0x80, 0x80, 0x80, 0x10, 0x01] = .ok (none, 0, some err) ∧
      decodeFields [0x80, 0x80, 0x80, 0x80, 0x10, 0x01] = .ok ([], some err) :=
  ⟨(DecodeAllChunks_Id_le [0x12, 0x02, 0x08, 0x01]).1
      [.Struct 2 ⟨2, 2, [0x12]⟩ [.Varint 1 ⟨1, 0, [0x08]⟩] [0x08, 0x01]] none
      (.Struct 2 ⟨2, 2, [0x12]⟩ [.Varint 1 ⟨1, 0, [0x08]⟩] [0x08, 0x01])
      (.Varint 1 ⟨1, 0, [0x08]⟩) rfl (List.Mem.head _)
      (Within.child _ _ _ _ _ _ (List.Mem.head _) (Within.here _)),
   (DecodeAllChunks_Id_le [0x80, 0x80, 0x80, 0x80, 0x10, 0x01]).2 (by decide) (by decide)⟩

/-! ## C7: a well-formed frame header is stripped -/

/-- C7. For every byte sequence `m` of fewer than `2^32` bytes, `DecodeAllChunks`
applied to `0x00 ++ (4-byte big-endian encoding of len(m)) ++ m` returns exactly
what the field-decoding loop returns on `m` alone; when `m` is non-empty and
does not start with `0x00`, that is `DecodeAllChunks(m)`. -/
theorem DecodeAllChunks_framed (m : List Byte) (h : m.length < 2 ^ 32) :
    DecodeAllChunks ((0 : Byte) :: bigEndianBytes4 m.length ++ m) = decodeFields m ∧
    (m ≠ [] → firstByte m ≠ 0 →
      DecodeAllChunks ((0 : Byte) :: bigEndianBytes4 m.length ++ m) = DecodeAllChunks m) := by
  have key : DecodeAllChunks ((0 : Byte) :: bigEndianBytes4 m.length ++ m) = decodeFields m := by
    have hv := bigEndianValue_bytes4 m.length h
    simp only [bigEndianBytes4] at hv
    simp only [bigEndianBytes4, List.cons_append, List.nil_append]
    rw [DecodeAllChunks_header _ _ _ _ _ _ rfl, hv, Nat.mod_eq_of_lt h]
    simp
  exact ⟨key, fun _ h0 => by rw [key, DecodeAllChunks_nonzero m h0]⟩

/-- C7 at the message `08 01` framed as `00 00000002 08 01`. -/
theorem DecodeAllChunks_framed_witness :
    DecodeAllChunks ((0 : Byte) :: bigEndianBytes4 ([0x08, 0x01] : List Byte).length
        ++ [0x08, 0x01]) = decodeFields [0x08, 0x01] ∧
    DecodeAllChunks ((0 : Byte) :: bigEndianBytes4 ([0x08, 0x01] : List Byte).length
        ++ [0x08, 0x01]) = DecodeAllChunks [0x08, 0x01] :=
  ⟨(DecodeAllChunks_framed [0x08, 0x01] (by decide)).1,
   (DecodeAllChunks_framed [0x08, 0x01] (by decide)).2 (by decide) (by decide)⟩

/-! ## C8: a frame header that declares another length -/

/-- C8, as stated, fails. The buffer `00 00000000 08 01` starts with `0x00` and
declares length 0 while 2 bytes follow the header; the header is stripped all
the same (one node, no error), whereas the loop run on the whole buffer returns
three nodes and an error. -/
theorem DecodeAllChunks_shorter_declared_length_stripped :
    5 ≤ ([0, 0, 0, 0, 0, 0x08, 0x01] : List Byte).length ∧
    firstByte [0, 0, 0, 0, 0, 0x08, 0x01] = 0 ∧
    bigEndianValue [0, 0, 0, 0] ≠ ([0x08, 0x01] : List Byte).length ∧
    DecodeAllChunks [0, 0, 0, 0, 0, 0x08, 0x01] =
      .ok ([.Varint 1 ⟨1, 0, [0x08]⟩], none) ∧
    decodeFields [0, 0, 0, 0, 0, 0x08, 0x01] =
      .ok ([.Varint 0 ⟨0, 0, [0]⟩, .Varint 0 ⟨0, 0, [0]⟩, .Varint 8 ⟨0, 0, [0]⟩],
        some .notEnoughAfterKey) :=
  ⟨by decide, rfl, by decide, rfl, rfl⟩

/-- C8, amended. For every buffer of at least 5 bytes that starts with `0x00`:
when the big-endian length in bytes 1..4 exceeds the number of bytes that
follow the 5-byte header, `DecodeAllChunks` returns what the field-decoding loop
returns on the entire unmodified buffer; when it does not exceed it (equal or
smaller, fewer than `2^32` bytes following), the header is stripped and the
loop runs on the bytes behind it. -/
theorem DecodeAllChunks_declared_length (d : List Byte) (hlen : 5 ≤ d.length)
    (h0 : firstByte d = 0) :
    (bigEndianValue ((d.drop 1).take 4) > d.length - 5 →
      DecodeAllChunks d = decodeFields d) ∧
    (bigEndianValue ((d.drop 1).take 4) ≤ d.length - 5 → d.length - 5 < 2 ^ 32 →
      DecodeAllChunks d = decodeFields (d.drop 5)) := by
  match d, hlen, h0 with
  | b0 :: b1 :: b2 :: b3 :: b4 :: rest, _, h0 =>
    simp only [firstByte] at h0
    have hv : bigEndianValue [b1, b2, b3, b4] < 2 ^ 32 := by
      have h1 := b1.isLt
      have h2 := b2.isLt
      have h3 := b3.isLt
      have h4 := b4.isLt
      simp only [bigEndianValue, List.foldl_cons, List.foldl_nil]
      omega
    simp only [List.drop_succ_cons, List.drop_zero, List.take_succ_cons, List.take_zero,
      List.length_cons]
    rw [DecodeAllChunks_header _ _ _ _ _ _ h0]
    constructor
    · intro h
      have hr : rest.length % 2 ^ 32 = rest.length := Nat.mod_eq_of_lt (by omega)
      rw [hr, if_pos (by omega)]
    · intro h h32
      have hr : rest.length % 2 ^ 32 = rest.length := Nat.mod_eq_of_lt (by omega)
      rw [hr, if_neg (by omega)]

/-- C8, amended, at `00 00000009 08 01`: declared length 9, two bytes follow. -/
theorem DecodeAllChunks_declared_length_witness :
    DecodeAllChunks [0, 0, 0, 0, 9, 0x08, 0x01] = decodeFields [0, 0, 0, 0, 9, 0x08, 0x01] :=
  (DecodeAllChunks_declared_length [0, 0, 0, 0, 9, 0x08, 0x01] (by decide) rfl).1 (by decide)

/-! ## C9: the result of the framing step -/

/-- C9. For every non-empty buffer `d` whose first byte is non-zero (any length)
the framing step returns `d`; for every buffer with `5 <= len(d) < 2^32` it
returns `d` when `d[0] != 0`, and otherwise, with `n` the big-endian value of
`d[1..4]`, `d` without its first 5 bytes when `n <= len(d) - 5` and `d` itself
when `n > len(d) - 5`. -/
theorem skipGrpcHeaderIfNeeded_result (d : List Byte) (hne : d ≠ [])
    (h : firstByte d ≠ 0 ∨ (5 ≤ d.length ∧ d.length < 2 ^ 32)) :
    skipGrpcHeaderIfNeeded d = .ok
      (if firstByte d ≠ 0 then d
       else if bigEndianValue ((d.drop 1).take 4) ≤ d.length - 5 then d.drop 5
       else d) := by
  by_cases h0 : firstByte d ≠ 0
  · rw [if_pos h0]
    exact skipGrpcHeaderIfNeeded_nonzero d h0
  · rw [if_neg h0]
    have hz : firstByte d = 0 := not_not.mp h0
    obtain ⟨h5, h32⟩ := h.resolve_left h0
    match d, h5, h32, hz with
    | b0 :: b1 :: b2 :: b3 :: b4 :: rest, _, h32, hz =>
      simp only [firstByte] at hz
      simp only [List.length_cons] at h32
      have hr : rest.length % 2 ^ 32 = rest.length := Nat.mod_eq_of_lt (by omega)
      rw [skipGrpcHeaderIfNeeded_header _ _ _ _ _ _ hz, hr]
      simp only [List.drop_succ_cons, List.drop_zero, List.take_succ_cons, List.take_zero,
        List.length_cons]
      congr 1
      by_cases hc : bigEndianValue [b1, b2, b3, b4] ≤ rest.length
      · rw [if_neg (by omega), if_pos (by omega)]
      · rw [if_pos (by omega), if_neg (by omega)]

/-- C9 at `00 00000002 08 01`: the header is removed. -/
theorem skipGrpcHeaderIfNeeded_result_witness :
    skipGrpcHeaderIfNeeded [0, 0, 0, 0, 2, 0x08, 0x01] = .ok [0x08, 0x01] :=
  skipGrpcHeaderIfNeeded_result [0, 0, 0, 0, 2, 0x08, 0x01] (by decide)
    (Or.inr ⟨by decide, by decide⟩)

/-! ## C10: the framing step on short buffers -/

/-- C10 fails on the code. On the 3-byte buffer `00 01 02` the framing step
does not return: the slice expressions `data[1:5]` / `data[5:]` are out of
range and the run panics, and so does `DecodeAllChunks` on that buffer. -/
theorem skipGrpcHeaderIfNeeded_short_buffer_panics :
    skipGrpcHeaderIfNeeded [0x00, 0x01, 0x02] = .panic ∧
    DecodeAllChunks [0x00, 0x01, 0x02] = .panic :=
  ⟨rfl, rfl⟩

/-! ## C11: the partial result of a failed decode -/

/-- C11. For every buffer on which `DecodeAllChunks` returns `(nodes, e)`, with
`d` the framing-stripped buffer: `nodes` is exactly the list of the fields that
`decodeChunk` decoded without error at consecutive positions of `d` from its
first byte; when `e` is an error these fields end before the end of `d` and `e`
is the error `decodeChunk` returns at the position right after the last of
them; when `e` is nil they consume every byte of `d`. -/
theorem DecodeAllChunks_partial_result (data : List Byte) (nodes : List Chunk)
    (e : Option Err) (h : DecodeAllChunks data = .ok (nodes, e)) :
    ∃ (d : List Byte) (t : List (Chunk × Nat)),
      skipGrpcHeaderIfNeeded data = .ok d ∧ t.map Prod.fst = nodes ∧
      ConsecutiveSteps d t ∧
      (e = none → (t.map Prod.snd).sum = d.length) ∧
      (∀ err, e = some err → (t.map Prod.snd).sum < d.length ∧
        ∃ chk k, decodeChunk (d.drop (t.map Prod.snd).sum) = .ok (chk, k, some err)) := by
  rw [DecodeAllChunks_eq, Outcome.bind_eq_ok] at h
  obtain ⟨d, hd, hfields⟩ := h
  obtain ⟨t, ht⟩ := decodeFields_steps d.length d nodes e le_rfl hfields
  exact ⟨d, t, hd, ht⟩

/-- C11 at `08 01 0D 01`: one field is decoded, the second is cut short. -/
theorem DecodeAllChunks_partial_result_witness :
    ∃ (d : List Byte) (t : List (Chunk × Nat)),
      skipGrpcHeaderIfNeeded [0x08, 0x01, 0x0D, 0x01] = .ok d ∧
      t.map Prod.fst = [.Varint 1 ⟨1, 0, [0x08]⟩] ∧
      ConsecutiveSteps d t ∧
      (some Err.notEnoughFixed32 = none → (t.map Prod.snd).sum = d.length) ∧
      (∀ err, some Err.notEnoughFixed32 = some err → (t.map Prod.snd).sum < d.length ∧
        ∃ chk k, decodeChunk (d.drop (t.map Prod.snd).sum) = .ok (chk, k, some err)) :=
  DecodeAllChunks_partial_result [0x08, 0x01, 0x0D, 0x01] [.Varint 1 ⟨1, 0, [0x08]⟩]
    (some .notEnoughFixed32) rfl

/-! ## C12: a declared length close to `2^64` -/

/-- C12 fails on the code. The buffer `12 FF FF FF FF FF FF FF FF FF 01` begins
with a key of field 2 and wire type 2 followed by the length varint `2^64 - 1`,
and no byte remains after it; `uint64(pos)+sLen` wraps to 10, which passes the
check against `len(data) = 11`, and slicing `data[11:10]` panics: no error is
returned. -/
theorem decodeChunk_length_overflow_panics :
    DecodeVarint [0xFF, 0xFF, 0xFF, 0xFF, 0xFF, 0xFF, 0xFF, 0xFF, 0xFF, 0x01] =
      (2 ^ 64 - 1, 10) ∧
    decodeChunk [0x12, 0xFF, 0xFF, 0xFF, 0xFF, 0xFF, 0xFF, 0xFF, 0xFF, 0xFF, 0x01] = .panic ∧
    DecodeAllChunks [0x12, 0xFF, 0xFF, 0xFF, 0xFF, 0xFF, 0xFF, 0xFF, 0xFF, 0xFF, 0x01] =
      .panic :=
  ⟨rfl, rfl, rfl⟩

/-! ## C13: a key with nothing after it -/

/-- C13, as stated, fails. The 11-byte buffer `80 80 80 80 80 80 80 80 80 80 01`
is one terminated varint with no byte after it (ten continuation bytes and a
final byte), yet `decodeChunk` returns the error "malformed keyTypeLen", of kind
`MalformedVarint` and not `TruncatedInput`: `proto.DecodeVarint` reads at most
ten bytes and returns `(0, 0)`, so the test `keyTypeLen <= 0` fires before the
test for a missing value. -/
theorem decodeChunk_long_key_malformed :
    varintShape 11 [0x80, 0x80, 0x80, 0x80, 0x80, 0x80, 0x80, 0x80, 0x80, 0x80, 0x01] = true ∧
    DecodeVarint [0x80, 0x80, 0x80, 0x80, 0x80, 0x80, 0x80, 0x80, 0x80, 0x80, 0x01] = (0, 0) ∧
    decodeChunk [0x80, 0x80, 0x80, 0x80, 0x80, 0x80, 0x80, 0x80, 0x80, 0x80, 0x01] =
      .ok (none, 0, some .malformedKeyTypeLen) ∧
    DecodeAllChunks [0x80, 0x80, 0x80, 0x80, 0x80, 0x80, 0x80, 0x80, 0x80, 0x80, 0x01] =
      .ok ([], some .malformedKeyTypeLen) ∧
    Err.kind .malformedKeyTypeLen = .MalformedVarint ∧
    Err.kind .malformedKeyTypeLen ≠ .TruncatedInput :=
  ⟨rfl, rfl, rfl, rfl, rfl, by decide⟩

/-- C13, amended. For every buffer that consists solely of one key varint that
`proto.DecodeVarint` decodes (it returns a length above 0, and that length is
the length of the buffer: no byte follows the key), `decodeChunk` returns no
node and the error "not enough data for any furter wire type", of kind
`TruncatedInput`, whatever the field number and the wire-type bits of the key;
`DecodeAllChunks` on such a buffer that does not start with `0x00` returns that
error with an empty node list. -/
theorem decodeChunk_decoded_key_only_truncated (data : List Byte)
    (hk : 0 < (DecodeVarint data).2) (hall : (DecodeVarint data).2 = data.length) :
    decodeChunk data = .ok (none, 0, some .notEnoughAfterKey) ∧
    Err.kind .notEnoughAfterKey = .TruncatedInput ∧
    (firstByte data ≠ 0 → DecodeAllChunks data = .ok ([], some .notEnoughAfterKey)) := by
  have hstep := decodeChunk_key_only data hk hall
  refine ⟨hstep, rfl, fun h0 => ?_⟩
  rw [DecodeAllChunks_nonzero data h0]
  exact decodeFields_step_err data none 0 _ (ne_nil_of_firstByte data h0) hstep

/-- C13, amended, at `08`, and at the key `FF FF FF FF 7F` (field number above the
maximum, wire-type bits 7). -/
theorem decodeChunk_decoded_key_only_truncated_witness :
    DecodeAllChunks [0x08] = .ok ([], some .notEnoughAfterKey) ∧
    decodeChunk [0xFF, 0xFF, 0xFF, 0xFF, 0x7F] = .ok (none, 0, some .notEnoughAfterKey) :=
  ⟨(decodeChunk_decoded_key_only_truncated [0x08] (by decide) (by decide)).2.2 (by decide),
   (decodeChunk_decoded_key_only_truncated [0xFF, 0xFF, 0xFF, 0xFF, 0x7F]
      (by decide) (by decide)).1⟩

/-! ## C14: a key varint that does not end -/

/-- C14. For every non-empty buffer whose leading varint is not terminated inside
the buffer (every byte has its high bit set) or is longer than 16 bytes (the
first 16 bytes have their high bit set), `decodeChunk` returns no node and the
error "malformed keyTypeLen", of kind `MalformedVarint`, and `DecodeAllChunks`
returns that error with an empty node list. -/
theorem decodeChunk_malformed_key (data : List Byte) (hne : data ≠ [])
    (h : (∀ b ∈ data, 128 ≤ b.val) ∨
      (16 ≤ data.length ∧ ∀ b ∈ data.take 16, 128 ≤ b.val)) :
    decodeChunk data = .ok (none, 0, some .malformedKeyTypeLen) ∧
    Err.kind .malformedKeyTypeLen = .MalformedVarint ∧
    DecodeAllChunks data = .ok ([], some .malformedKeyTypeLen) := by
  have h10 : ∀ b ∈ data.take 10, 128 ≤ b.val := by
    intro b hb
    rcases h with h | ⟨-, h⟩
    · exact h b (List.mem_of_mem_take hb)
    · apply h b
      have : data.take 10 = (data.take 16).take 10 := by
        rw [List.take_take]
        simp
      rw [this] at hb
      exact List.mem_of_mem_take hb
  have hfirst : firstByte data ≠ 0 := by
    cases data with
    | nil => exact absurd rfl hne
    | cons b bs =>
      have := h10 b (by simp)
      simp only [firstByte]
      omega
  have hstep := decodeChunk_key_unterminated data h10
  refine ⟨hstep, rfl, ?_⟩
  rw [DecodeAllChunks_nonzero data hfirst]
  exact decodeFields_step_err data none 0 _ hne hstep

/-- C14 at 17 bytes of `0xFF`. -/
theorem decodeChunk_malformed_key_witness :
    DecodeAllChunks (List.replicate 17 (0xFF : Byte)) =
      .ok ([], some .malformedKeyTypeLen) :=
  (decodeChunk_malformed_key (List.replicate 17 (0xFF : Byte)) (by decide)
    (Or.inl (fun b hb => by rw [List.eq_of_mem_replicate hb]; decide))).2.2

/-! ## C15: a field number above the maximum -/

/-- C15. For every buffer whose leading key varint decodes to a value `t` with
`(t >> 3) > 536870911` and that has at least one byte after the key,
`decodeChunk` returns no node and the error "field number > 2^29-1", of kind
`InvalidFieldNumber`, whatever the wire-type bits and the following bytes are;
and no node returned by `decodeChunk` has a field number above 536870911. -/
theorem decodeChunk_invalid_field_number (data : List Byte)
    (hk : 0 < (DecodeVarint data).2) (hlen : (DecodeVarint data).2 < data.length)
    (hf : (DecodeVarint data).1 >>> 3 > 536870911) :
    decodeChunk data = .ok (none, 0, some .fieldNumberTooLarge) ∧
    Err.kind .fieldNumberTooLarge = .InvalidFieldNumber ∧
    ∀ (buf : List Byte) (c : Chunk) (n : Nat) (e : Option Err),
      decodeChunk buf = .ok (some c, n, e) → c.Id ≤ 536870911 := by
  refine ⟨decodeChunk_field_too_large data hk hlen hf, rfl, ?_⟩
  intro buf c n e hs
  obtain ⟨-, hid, -⟩ := decodeChunkWith_some_inv _ _ _ _ _ hs
  obtain ⟨-, -, hle⟩ := decodeChunkWith_some_key _ _ _ _ _ hs
  unfold Chunk.Id
  rw [hid]
  exact hle

/-- C15 at the key `87 80 80 80 10` (field number `2^29`, wire-type bits 7)
followed by one byte. -/
theorem decodeChunk_invalid_field_number_witness :
    decodeChunk [0x87, 0x80, 0x80, 0x80, 0x10, 0x00] =
      .ok (none, 0, some .fieldNumberTooLarge) :=
  (decodeChunk_invalid_field_number [0x87, 0x80, 0x80, 0x80, 0x10, 0x00]
    (by decide) (by decide) (by decide)).1

/-! ## C16: the wire-type bits -/

/-- C16. For every buffer whose leading key has a field number of at most
536870911 and wire-type bits `key & 7` equal to 6 or 7, with at least one byte
after the key, `decodeChunk` returns no node and the error "Unknown wire type",
of kind `UnknownWireType`; and for wire-type bits 0 to 5 no error returned by
`decodeChunk` is of that kind. -/
theorem decodeChunk_unknown_wire_type (data : List Byte) :
    (0 < (DecodeVarint data).2 → (DecodeVarint data).2 < data.length →
      (DecodeVarint data).1 >>> 3 ≤ 536870911 →
      ((DecodeVarint data).1 &&& 7 = 6 ∨ (DecodeVarint data).1 &&& 7 = 7) →
      decodeChunk data = .ok (none, (DecodeVarint data).2,
        some (.unknownWireType ((DecodeVarint data).1 &&& 7) (DecodeVarint data).1)) ∧
      Err.kind (.unknownWireType ((DecodeVarint data).1 &&& 7) (DecodeVarint data).1) =
        .UnknownWireType) ∧
    ((DecodeVarint data).1 &&& 7 ≤ 5 →
      ∀ (chk : Option Chunk) (n : Nat) (e : Err),
        decodeChunk data = .ok (chk, n, some e) → e.kind ≠ .UnknownWireType) := by
  constructor
  · intro hk hlen hf hw
    exact ⟨decodeChunk_unknown data hk hlen hf hw, rfl⟩
  · intro hw chk n e hs hkind
    exact (decodeChunkWith_err _ _ _ _ _ hs).2 hkind |>.1 hw

/-- C16 at `0E 00` (field 1, wire-type bits 6), `0F 00` (bits 7) and `0D 01`
(bits 5, too short: another error). -/
theorem decodeChunk_unknown_wire_type_witness :
    decodeChunk [0x0E, 0x00] = .ok (none, 1, some (.unknownWireType 6 0x0E)) ∧
    decodeChunk [0x0F, 0x00] = .ok (none, 1, some (.unknownWireType 7 0x0F)) ∧
    Err.kind .notEnoughFixed32 ≠ .UnknownWireType :=
  ⟨((decodeChunk_unknown_wire_type [0x0E, 0x00]).1 (by decide) (by decide) (by decide)
      (Or.inl (by decide))).1,
   ((decodeChunk_unknown_wire_type [0x0F, 0x00]).1 (by decide) (by decide) (by decide)
      (Or.inr (by decide))).1,
   (decodeChunk_unknown_wire_type [0x0D, 0x01]).2 (by decide) none 1 .notEnoughFixed32 rfl⟩

/-! ## C17: fixed-width fields -/

/-- C17. For every buffer whose leading key has a field number of at most
536870911 and wire type 1 (width `w = 8`) or 5 (width `w = 4`): if at least `w`
bytes follow the key, `decodeChunk` returns a `Fixed64` (resp. `Fixed32`) node
whose value is the little-endian unsigned integer of the first `w` bytes after
the key, with `chunkLen` = key bytes + `w`; if fewer than `w` bytes follow, it
returns no node and an error of kind `TruncatedInput`. -/
theorem decodeChunk_fixed_width (data : List Byte) (w : Nat)
    (hk : 0 < (DecodeVarint data).2) (hf : (DecodeVarint data).1 >>> 3 ≤ 536870911)
    (hw : ((DecodeVarint data).1 &&& 7 = 1 ∧ w = 8) ∨
      ((DecodeVarint data).1 &&& 7 = 5 ∧ w = 4)) :
    ((DecodeVarint data).2 + w ≤ data.length →
      decodeChunk data =
        .ok (some (if w = 8
            then .Fixed64 (littleEndianValue ((data.drop (DecodeVarint data).2).take w))
              (keyIdType data)
            else .Fixed32 (littleEndianValue ((data.drop (DecodeVarint data).2).take w))
              (keyIdType data)),
          (DecodeVarint data).2 + w, none)) ∧
    (data.length < (DecodeVarint data).2 + w →
      ∃ n e, decodeChunk data = .ok (none, n, some e) ∧ e.kind = .TruncatedInput) := by
  constructor
  · intro hb
    rcases hw with ⟨hw, rfl⟩ | ⟨hw, rfl⟩
    · rw [if_pos rfl]
      exact decodeChunk_fixed64 data hk hf hw hb
    · rw [if_neg (by decide)]
      exact decodeChunk_fixed32 data hk hf hw hb
  · intro hb
    exact decodeChunk_fixed_short data w hk hf hw hb

/-- C17 at `0D 01 02 03 04` (a `Fixed32` with value `0x04030201`), at
`09 01 02 03 04 05 06 07 08` (a `Fixed64`) and at `0D 01 02 03` (three value
bytes only). -/
theorem decodeChunk_fixed_width_witness :
    decodeChunk [0x0D, 0x01, 0x02, 0x03, 0x04] =
      .ok (some (.Fixed32 0x04030201 ⟨1, 5, [0x0D]⟩), 5, none) ∧
    decodeChunk [0x09, 0x01, 0x02, 0x03, 0x04, 0x05, 0x06, 0x07, 0x08] =
      .ok (some (.Fixed64 0x0807060504030201 ⟨1, 1, [0x09]⟩), 9, none) ∧
    (∃ n e, decodeChunk [0x0D, 0x01, 0x02, 0x03] = .ok (none, n, some e) ∧
      e.kind = .TruncatedInput) ∧
    DecodeAllChunks [0x0D, 0x01, 0x02, 0x03] = .ok ([], some .notEnoughFixed32) :=
  ⟨(decodeChunk_fixed_width [0x0D, 0x01, 0x02, 0x03, 0x04] 4 (by decide) (by decide)
      (Or.inr ⟨by decide, rfl⟩)).1 (by decide),
   (decodeChunk_fixed_width [0x09, 0x01, 0x02, 0x03, 0x04, 0x05, 0x06, 0x07, 0x08] 8
      (by decide) (by decide) (Or.inl ⟨by decide, rfl⟩)).1 (by decide),
   (decodeChunk_fixed_width [0x0D, 0x01, 0x02, 0x03] 4 (by decide) (by decide)
      (Or.inr ⟨by decide, rfl⟩)).2 (by decide),
   rfl⟩

/-! ## C18: the render facade -/

/-- C18. For every buffer and every renderer `r`: when `DecodeAllChunks` returns
an error `e`, `TryDumpEx` returns the empty string together with `e` and `Dump`
returns the empty string; when `DecodeAllChunks` returns the nodes `c1..cn` with
no error, `TryDumpEx` returns, with a nil error, the concatenation in order of
`ci.Render("", r)` followed by `r.NEWLINE()`, and `Dump` returns that string for
the console renderer. -/
theorem TryDumpEx_Dump_result {R : Type} (env : Rendering R) (console r : R)
    (data : List Byte) (nodes : List Chunk) :
    (∀ e : Err, DecodeAllChunks data = .ok (nodes, some e) →
      TryDumpEx env data r = .ok ("", some e) ∧ Dump env console data = .ok "") ∧
    (DecodeAllChunks data = .ok (nodes, none) →
      TryDumpEx env data r =
        .ok (concatAll (nodes.map fun c => env.Render c "" r ++ env.NEWLINE r), none) ∧
      Dump env console data =
        .ok (concatAll (nodes.map fun c => env.Render c "" console ++ env.NEWLINE console))) := by
  have hfold : ∀ q : R, nodes.foldl (fun ret ch => ret ++ env.Render ch "" q ++ env.NEWLINE q) "" =
      concatAll (nodes.map fun c => env.Render c "" q ++ env.NEWLINE q) := by
    intro q
    have := foldl_render_eq (fun c => env.Render c "" q ++ env.NEWLINE q) nodes ""
    simp only [String.empty_append] at this
    rw [← this]
    congr 1
    funext ret ch
    rw [String.append_assoc]
  constructor
  · intro e h
    constructor <;> simp only [Dump, TryDump, TryDumpEx, h, Outcome.bind_ok]
  · intro h
    constructor <;> simp only [Dump, TryDump, TryDumpEx, h, Outcome.bind_ok, hfold]

/-- C18 for a renderer that writes the field number of a `Varint` node and `;`
as line terminator: on `08 01 10 02` (two fields) and on `08` (an error). -/
theorem TryDumpEx_Dump_result_witness :
    TryDumpEx (R := Unit) ⟨fun c ind _ => ind ++ toString c.Id, fun _ => ";"⟩
      [0x08, 0x01, 0x10, 0x02] () = .ok ("1;2;", none) ∧
    Dump (R := Unit) ⟨fun c ind _ => ind ++ toString c.Id, fun _ => ";"⟩ ()
      [0x08, 0x01, 0x10, 0x02] = .ok "1;2;" ∧
    TryDumpEx (R := Unit) ⟨fun c ind _ => ind ++ toString c.Id, fun _ => ";"⟩ [0x08] () =
      .ok ("", some .notEnoughAfterKey) ∧
    Dump (R := Unit) ⟨fun c ind _ => ind ++ toString c.Id, fun _ => ";"⟩ () [0x08] = .ok "" :=
  ⟨((TryDumpEx_Dump_result (R := Unit) ⟨fun c ind _ => ind ++ toString c.Id, fun _ => ";"⟩
      () () [0x08, 0x01, 0x10, 0x02]
      [.Varint 1 ⟨1, 0, [0x08]⟩, .Varint 2 ⟨2, 0, [0x10]⟩]).2 rfl).1.trans (by decide),
   ((TryDumpEx_Dump_result (R := Unit) ⟨fun c ind _ => ind ++ toString c.Id, fun _ => ";"⟩
      () () [0x08, 0x01, 0x10, 0x02]
      [.Varint 1 ⟨1, 0, [0x08]⟩, .Varint 2 ⟨2, 0, [0x10]⟩]).2 rfl).2.trans (by decide),
   ((TryDumpEx_Dump_result (R := Unit) ⟨fun c ind _ => ind ++ toString c.Id, fun _ => ";"⟩
      () () [0x08] []).1 .notEnoughAfterKey rfl).1,
   ((TryDumpEx_Dump_result (R := Unit) ⟨fun c ind _ => ind ++ toString c.Id, fun _ => ";"⟩
      () () [0x08] []).1 .notEnoughAfterKey rfl).2⟩

/-! ## C19: concatenation -/

/-- C19. For all buffers `a` and `b` where `a` is non-empty, does not start with
`0x00`, and is decoded by `DecodeAllChunks` without error into the node list
`A`: `DecodeAllChunks(a ++ b)` returns `A` followed by the nodes that the
field-decoding loop returns on `b`, together with that loop's error; the error
is nil when `b` is empty. Top-level nodes thus appear in the byte order of their
encodings, and fields with the same field number stay separate siblings. -/
theorem DecodeAllChunks_append (a b : List Byte) (A : List Chunk) (hne : a ≠ [])
    (h0 : firstByte a ≠ 0) (h : DecodeAllChunks a = .ok (A, none)) :
    DecodeAllChunks (a ++ b) = ((decodeFields b).bind fun r => .ok (A ++ r.1, r.2)) ∧
    (∀ (B : List Chunk) (e : Option Err), decodeFields b = .ok (B, e) →
      DecodeAllChunks (a ++ b) = .ok (A ++ B, e)) ∧
    (b = [] → DecodeAllChunks (a ++ b) = .ok (A, none)) := by
  rw [DecodeAllChunks_nonzero a h0] at h
  have key : DecodeAllChunks (a ++ b) =
      ((decodeFields b).bind fun r => .ok (A ++ r.1, r.2)) := by
    rw [DecodeAllChunks_nonzero (a ++ b) (by rw [firstByte_append a b hne]; exact h0)]
    exact decodeFields_append a.length a A le_rfl h b
  refine ⟨key, ?_, ?_⟩
  · intro B e hB
    rw [key, hB]
    rfl
  · intro hb
    rw [key, hb, decodeFields_nil]
    simp

/-- C19 at `a = 08 01` and `b = 08 02`: two fields with field number 1 give two
sibling nodes in byte order. -/
theorem DecodeAllChunks_append_witness :
    DecodeAllChunks ([0x08, 0x01] ++ [0x08, 0x02]) =
      .ok ([.Varint 1 ⟨1, 0, [0x08]⟩] ++ [.Varint 2 ⟨1, 0, [0x08]⟩], none) :=
  (DecodeAllChunks_append [0x08, 0x01] [0x08, 0x02] [.Varint 1 ⟨1, 0, [0x08]⟩]
    (by decide) (by decide) rfl).2.1 [.Varint 2 ⟨1, 0, [0x08]⟩] none rfl

/-! ## C20: progress and termination -/

/-- C20. For every buffer `data`: whenever `decodeChunk(data)` returns no error,
its consumed count satisfies `2 <= chunkLen <= len(data)` and equals the length
of the key plus the encoded length of the value; hence consecutive steps move
the cursor forward by at least 2 and never past the end of the buffer; the
result of `decodeChunk` depends on the recursive `DecodeAllChunks` call only
through its values on buffers strictly shorter than `data`, and the payload of
a returned `Struct` is shorter than `data` by at least 2; so the recursion is
well founded on the length of the buffer: every run of `DecodeAllChunks` ends
(it returns or panics, the budget of the embedding is never exhausted), every
nesting budget above the length gives the same result, and `DecodeAllChunks`
satisfies its defining equation. -/
theorem decodeChunk_progress_termination (data : List Byte) :
    (∀ (chk : Option Chunk) (len : Nat), decodeChunk data = .ok (chk, len, none) →
      2 ≤ len ∧ len ≤ data.length ∧ len = (DecodeVarint data).2 + encodedValueLen data) ∧
    (∀ t : List (Chunk × Nat), ConsecutiveSteps data t →
      (∀ s ∈ t, 2 ≤ s.2) ∧ (t.map Prod.snd).sum ≤ data.length) ∧
    (∀ r1 r2 : List Byte → Outcome Decoded,
      (∀ s : List Byte, s.length < data.length → r1 s = r2 s) →
      decodeChunkWith r1 data = decodeChunkWith r2 data) ∧
    (∀ (dl : Nat) (idt : IdType) (ch : List Chunk) (str : List Byte) (n : Nat)
      (e : Option Err), decodeChunk data = .ok (some (.Struct dl idt ch str), n, e) →
      str.length + 2 ≤ data.length) ∧
    DecodeAllChunks data ≠ .fuel ∧
    (∀ n : Nat, data.length < n → DecodeAllChunksFuel n data = DecodeAllChunks data) ∧
    DecodeAllChunks data = (skipGrpcHeaderIfNeeded data).bind decodeFields := by
  refine ⟨?_, fun t => ConsecutiveSteps_bounds t data,
    fun r1 r2 => decodeChunkWith_congr r1 r2 data,
    decodeChunk_struct_shorter data, DecodeAllChunks_ne_fuel data, ?_,
    DecodeAllChunks_eq data⟩
  · intro chk len h
    obtain ⟨-, h2, hle⟩ := decodeChunkWith_ok_bounds _ _ _ _ h
    exact ⟨h2, hle, decodeChunk_len data chk len h⟩
  · intro n hn
    exact DecodeAllChunksFuel_budget n (data.length + 1) data hn (Nat.lt_succ_self _)

/-- C20 at `12 02 08 01`: the step consumes 4 = 1 + (1 + 2) bytes and its
payload has 2 bytes. -/
theorem decodeChunk_progress_termination_witness :
    (2 ≤ 4 ∧ 4 ≤ ([0x12, 0x02, 0x08, 0x01] : List Byte).length ∧
      4 = (DecodeVarint [0x12, 0x02, 0x08, 0x01]).2 +
        encodedValueLen [0x12, 0x02, 0x08, 0x01]) ∧
    ([0x08, 0x01] : List Byte).length + 2 ≤ ([0x12, 0x02, 0x08, 0x01] : List Byte).length :=
  ⟨(decodeChunk_progress_termination [0x12, 0x02, 0x08, 0x01]).1
      (some (.Struct 2 ⟨2, 2, [0x12]⟩ [.Varint 1 ⟨1, 0, [0x08]⟩] [0x08, 0x01])) 4 rfl,
   (decodeChunk_progress_termination [0x12, 0x02, 0x08, 0x01]).2.2.2.1
      2 ⟨2, 2, [0x12]⟩ [.Varint 1 ⟨1, 0, [0x08]⟩] [0x08, 0x01] 4 none rfl⟩

end Aproto
